import Mathlib

set_option maxHeartbeats 1000000
set_option maxRecDepth 8000

/-!
Shallow embedding of `src/scheduler-gpt.py`, a discrete-time CPU-scheduling
simulator with three policies: non-preemptive FCFS, preemptive SJF
(shortest remaining time first) and quantum-based round robin.

Modelling choices:
* Python `int` becomes `Int` for process fields (`arrival`, `burst`,
  `remaining`) and for the round-robin `quantum`; the simulated clock and
  the loop bound are `Nat` (the Python loop `while time < runfor` performs
  exactly `max runfor 0` iterations, see `run_scheduler`).
* The schedulers mutate `Process` objects shared between the ready queue,
  `current` and the sorted list `procs_sorted`.  We keep the canonical
  store as a `List Process` (in sorted order) and let the queue and
  `current` hold indices into it; Python object identity (`is`, `in`,
  `remove`) becomes index equality.
* Event strings are kept structured (`Event`) and rendered to the exact
  Python f-string text by `renderEvent` at output time.
* `deepcopy` is a no-op on pure values.  The unused `last_start` field of
  `Process` is omitted.
* Each tick additionally records a `TickInfo` (who executed, who was newly
  selected, who was preempted on quantum expiry, which finish events were
  recorded); this instrumentation does not influence the simulation.
-/

/-- One scheduling event.  The Python code appends the already formatted
string to `events`; we keep the structured form (tick label, process name,
and for "selected" the remaining burst that is printed). -/
inductive Event where
  | arrived (tick : Nat) (pname : String)
  | selected (tick : Nat) (pname : String) (rem : Int)
  | finished (tick : Nat) (pname : String)
  | idle (tick : Nat)
deriving DecidableEq, Repr

/-- Mirror of `class Process` (scheduler-gpt.py lines 25-57).  The field
`last_start` is initialised to `None` and never written or read afterwards,
so it is omitted. -/
structure Process where
  name : String
  arrival : Int
  burst : Int
  remaining : Int
  start_time : Option Nat
  finish_time : Option Nat
  state : String
deriving DecidableEq, Repr

/-- `Process.__init__`: `remaining` starts at `burst`, times unset, state
"NotArrived". -/
def mkProcess (nm : String) (arrival burst : Int) : Process :=
  { name := nm, arrival := arrival, burst := burst, remaining := burst,
    start_time := none, finish_time := none, state := "NotArrived" }

/-- `Process.is_finished`: `remaining <= 0`. -/
def Process.is_finished (p : Process) : Bool := decide (p.remaining ≤ 0)

/-- `Process.turnaround`: `finish_time - arrival`, `None` if unfinished. -/
def Process.turnaround (p : Process) : Option Int :=
  p.finish_time.map (fun f => (f : Int) - p.arrival)

/-- `Process.wait_time`: `turnaround - burst`, `None` if unfinished. -/
def Process.wait_time (p : Process) : Option Int :=
  p.turnaround.map (fun t => t - p.burst)

/-- `Process.response_time`: `start_time - arrival`, `None` if never started. -/
def Process.response_time (p : Process) : Option Int :=
  p.start_time.map (fun s => (s : Int) - p.arrival)

/-- Default process used to total out-of-range list indexing (Python would
raise; all reachable accesses are in range). -/
def dfltProc : Process := mkProcess "" 0 0

/-- Index into the working process list. -/
def getP (ps : List Process) (i : Nat) : Process := ps.getD i dfltProc

/-- Point update of the working process list (mutation of the shared
`Process` object at index `i`). -/
def modifyIdx : List Process → Nat → (Process → Process) → List Process
  | [], _, _ => []
  | p :: t, 0, f => f p :: t
  | p :: t, n+1, f => p :: modifyIdx t n f

/-- Stable insertion by `arrival`, used to model Python's stable
`sorted(procs, key=lambda p: p.arrival)`: the new element goes after all
already-inserted elements whose arrival is `≤` its own, so elements with
equal arrival keep their original relative order. -/
def insertByArrival (p : Process) : List Process → List Process
  | [] => [p]
  | q :: t => if q.arrival ≤ p.arrival then q :: insertByArrival p t else p :: q :: t

/-- Model of `sorted(procs, key=lambda p: p.arrival)` (stable). -/
def sortByArrival (l : List Process) : List Process :=
  l.foldl (fun acc p => insertByArrival p acc) []

/-- Shared mutable state of one scheduler run: the working (sorted) process
list, the arrival scan index, the ready queue (indices), the running index,
and the round-robin quantum counter (`current_quantum_used`; unused by FCFS
and SJF, kept 0 there). -/
structure SchedState where
  procs : List Process
  arrIdx : Nat
  ready : List Nat
  cur : Option Nat
  cq : Nat
deriving DecidableEq, Repr

/-- Instrumentation of one tick: which index executed one unit this tick,
which index was newly selected (a "selected" event was emitted), which
index was preempted on quantum expiry (RR only), and the `(index, label)`
pairs of "finished" events recorded this tick. -/
structure TickInfo where
  exec : Option Nat
  sel : Option Nat
  pre : Option Nat
  finRecs : List (Nat × Nat)
deriving DecidableEq, Repr

/-- Result of one tick: the new state, the events appended this tick (in
append order), and the instrumentation record. -/
structure TickOut where
  state : SchedState
  evs : List Event
  info : TickInfo
deriving DecidableEq, Repr

/-- Arrival scan: the Python inner `while arrival_index < n and
procs_sorted[arrival_index].arrival == time` loop; returns the new arrival
index and the list of indices that arrive at `time`.  Structural recursion
on explicit fuel so that the kernel can evaluate it. -/
def collectArrivalsAux (ps : List Process) (time : Nat) : Nat → Nat → Nat × List Nat
  | arrIdx, 0 => (arrIdx, [])
  | arrIdx, fuel+1 =>
    match ps[arrIdx]? with
    | none => (arrIdx, [])
    | some p =>
      if p.arrival = (time : Int) then
        let r := collectArrivalsAux ps time (arrIdx+1) fuel
        (r.1, arrIdx :: r.2)
      else (arrIdx, [])

/-- Arrival scan with fuel `ps.length - arrIdx` (enough to reach the end). -/
def collectArrivals (ps : List Process) (time arrIdx : Nat) : Nat × List Nat :=
  collectArrivalsAux ps time arrIdx (ps.length - arrIdx)

/-- Arrival transition `p.state = "Ready"`. -/
def setReadyState (p : Process) : Process := { p with state := "Ready" }

/-- Mark every index in `js` Ready (the mutation done in the arrival loop). -/
def markReady (ps : List Process) (js : List Nat) : List Process :=
  js.foldl (fun acc j => modifyIdx acc j setReadyState) ps

/-- The "arrived" events appended for this tick's arrivals. -/
def arrivedEvents (ps : List Process) (js : List Nat) (time : Nat) : List Event :=
  js.map fun j => Event.arrived time (getP ps j).name

/-- Selection bookkeeping shared by all schedulers: set `start_time` on
first execution, state "Running". -/
def selectProc (time : Nat) (p : Process) : Process :=
  { p with
    start_time := match p.start_time with | none => some time | some s => some s,
    state := "Running" }

/-- Execute one unit: `remaining -= 1`. -/
def decRem (p : Process) : Process := { p with remaining := p.remaining - 1 }

/-- Completion bookkeeping: `finish_time = t`, state "Finished". -/
def finishAt (t : Nat) (p : Process) : Process :=
  { p with finish_time := some t, state := "Finished" }

/-- Round-robin reselection finish bookkeeping (lines 333-339): the finish
time is only written if still unset, the state and event are unconditional. -/
def rrZombieFin (t : Nat) (p : Process) : Process :=
  { p with
    finish_time := match p.finish_time with | none => some t | some u => some u,
    state := "Finished" }

/-- Intermediate value threaded through the selection phase of FCFS and RR:
current working list, ready queue, current, quantum counter, plus the
events and instrumentation accumulated so far in this tick. -/
structure Mid where
  procs : List Process
  ready : List Nat
  cur : Option Nat
  cq : Nat
  evs : List Event
  selIdx : Option Nat
  preIdx : Option Nat
  finRecs : List (Nat × Nat)
deriving DecidableEq, Repr

/-- Shared execution of one unit at tick `time` by index `c` (lines
219-226 / 292-299 / 359-369): decrement `remaining`; if it drops to `≤ 0`,
record `finish_time = time+1`, emit "finished" labeled `time+1` and clear
`current` (resetting the RR counter), else keep running with counter
`cqNext`. -/
structure ExecRes where
  procs : List Process
  cur : Option Nat
  cq : Nat
  evs : List Event
  finRecs : List (Nat × Nat)
deriving DecidableEq, Repr

def execUnit (time : Nat) (ps : List Process) (c : Nat) (cqNext : Nat) : ExecRes :=
  let ps2 := modifyIdx ps c decRem
  if (getP ps2 c).is_finished then
    { procs := modifyIdx ps2 c (finishAt (time+1)), cur := none, cq := 0,
      evs := [Event.finished (time+1) (getP ps2 c).name],
      finRecs := [(c, time+1)] }
  else
    { procs := ps2, cur := some c, cq := cqNext, evs := [], finRecs := [] }

/-- FCFS: pop the head of the ready queue when no process is current
(lines 211-217). -/
def fcfsPick (time : Nat) (m : Mid) : Mid :=
  match m.cur with
  | some _ => m
  | none =>
    match m.ready with
    | [] => m
    | j :: rest =>
      { m with
        procs := modifyIdx m.procs j (selectProc time),
        ready := rest, cur := some j,
        evs := m.evs ++ [Event.selected time (getP m.procs j).name (getP m.procs j).remaining],
        selIdx := some j }

/-- FCFS selection phase (lines 204-217): if the current process is absent
or finished, first record a pending finish (only when `finish_time` is
still unset), then pick the next ready process. -/
def fcfsSelect (time : Nat) (m : Mid) : Mid :=
  match m.cur with
  | none => fcfsPick time m
  | some c =>
    if (getP m.procs c).is_finished then
      if (getP m.procs c).finish_time = none then
        fcfsPick time
          { m with
            procs := modifyIdx m.procs c (finishAt time),
            cur := none,
            evs := m.evs ++ [Event.finished time (getP m.procs c).name],
            finRecs := m.finRecs ++ [(c, time)] }
      else m
    else m

/-- FCFS tick after the arrival phase: selection on the post-arrival
components, then execution or an "idle" event. -/
def fcfsBody (time : Nat) (ps1 : List Process) (ai1 : Nat) (ready1 : List Nat)
    (cur : Option Nat) (evA : List Event) : TickOut :=
  let m := fcfsSelect time ⟨ps1, ready1, cur, 0, [], none, none, []⟩
  match m.cur with
  | some c =>
    let ex := execUnit time m.procs c 0
    ⟨⟨ex.procs, ai1, m.ready, ex.cur, 0⟩, evA ++ m.evs ++ ex.evs,
     ⟨some c, m.selIdx, none, m.finRecs ++ ex.finRecs⟩⟩
  | none =>
    ⟨⟨m.procs, ai1, m.ready, none, 0⟩, evA ++ m.evs ++ [Event.idle time],
     ⟨none, m.selIdx, none, m.finRecs⟩⟩

/-- One FCFS tick (body of the `while time < runfor` loop, lines 191-229):
arrivals, selection, then execution or an "idle" event. -/
def fcfsTick (time : Nat) (s : SchedState) : TickOut :=
  let col := collectArrivals s.procs time s.arrIdx
  let ps1 := markReady s.procs col.2
  fcfsBody time ps1 col.1 (s.ready ++ col.2) s.cur (arrivedEvents ps1 col.2 time)

/-- The ordered SJF key `(p.remaining, p.arrival, p.name)` (line 267). -/
def procKey (p : Process) : Int × Int × String := (p.remaining, p.arrival, p.name)

/-- Strict lexicographic comparison of SJF keys, as Python compares the
tuples `(remaining, arrival, name)`. -/
def keyLt (a b : Int × Int × String) : Bool :=
  decide (a.1 < b.1) ||
    (decide (a.1 = b.1) &&
      (decide (a.2.1 < b.2.1) ||
        (decide (a.2.1 = b.2.1) && decide (a.2.2 < b.2.2))))

/-- Key comparison lifted to indices of the working list. -/
def idxLt (ps : List Process) (i j : Nat) : Bool :=
  keyLt (procKey (getP ps i)) (procKey (getP ps j))

/-- Python `min`: scan the list keeping the first element with the
strictly smallest key. -/
def pyMin (lt : Nat → Nat → Bool) : Nat → List Nat → Nat
  | a, [] => a
  | a, b :: t => pyMin lt (if lt b a then b else a) t

/-- SJF candidate set (lines 261-263): the non-finished entries of the
ready list, then the current process if present and not finished. -/
def sjfCandidates (ps : List Process) (ready : List Nat) (cur : Option Nat) : List Nat :=
  (ready.filter fun j => !(getP ps j).is_finished) ++
    (match cur with
     | some c => if (getP ps c).is_finished then [] else [c]
     | none => [])

/-- SJF preemption of the displaced current process (lines 271-275): if it
exists and is unfinished it becomes Ready and is appended to the ready
list unless already there. -/
def sjfPreempt (ps : List Process) (ready : List Nat) (cur : Option Nat) :
    List Process × List Nat :=
  match cur with
  | some c =>
    if (getP ps c).is_finished then (ps, ready)
    else (modifyIdx ps c setReadyState, if c ∈ ready then ready else ready ++ [c])
  | none => (ps, ready)

/-- One preemptive-SJF tick (lines 248-301): arrivals; recompute the
candidate set; if non-empty take the key-minimal candidate, switching (and
emitting "selected") when it differs from the current process, then
execute one unit; otherwise clear a finished current process and emit
"idle" (the Python `continue`). -/
def sjfBody (time : Nat) (ps1 : List Process) (ai1 : Nat) (ready1 : List Nat)
    (cur : Option Nat) (evA : List Event) : TickOut :=
  match sjfCandidates ps1 ready1 cur with
  | [] =>
    let cur2 : Option Nat :=
      match cur with
      | some c => if (getP ps1 c).is_finished then none else some c
      | none => none
    ⟨⟨ps1, ai1, ready1, cur2, 0⟩, evA ++ [Event.idle time], ⟨none, none, none, []⟩⟩
  | c0 :: cs =>
    let chosen := pyMin (idxLt ps1) c0 cs
    if some chosen = cur then
      let ex := execUnit time ps1 chosen 0
      ⟨⟨ex.procs, ai1, ready1, ex.cur, 0⟩, evA ++ ex.evs,
       ⟨some chosen, none, none, ex.finRecs⟩⟩
    else
      let pr := sjfPreempt ps1 ready1 cur
      let ready2 := pr.2.erase chosen
      let ps3 := modifyIdx pr.1 chosen (selectProc time)
      let evS := [Event.selected time (getP pr.1 chosen).name (getP pr.1 chosen).remaining]
      let ex := execUnit time ps3 chosen 0
      ⟨⟨ex.procs, ai1, ready2, ex.cur, 0⟩, evA ++ evS ++ ex.evs,
       ⟨some chosen, some chosen, none, ex.finRecs⟩⟩

/-- One preemptive-SJF tick: arrivals, then `sjfBody`. -/
def sjfTick (time : Nat) (s : SchedState) : TickOut :=
  let col := collectArrivals s.procs time s.arrIdx
  let ps1 := markReady s.procs col.2
  sjfBody time ps1 col.1 (s.ready ++ col.2) s.cur (arrivedEvents ps1 col.2 time)

/-- The RR reselection test (line 331): no current process, current
finished, or a full quantum consumed. -/
def rrNeeds (quantum : Int) (ps : List Process) (cur : Option Nat) (cq : Nat) : Bool :=
  match cur with
  | none => true
  | some c => (getP ps c).is_finished || decide (quantum ≤ (cq : Int))

/-- RR reselection step 1 (lines 333-339): record a finished current
process ("finished" event labeled with the current tick) and clear it. -/
def rrFinishStep (time : Nat) (m : Mid) : Mid :=
  match m.cur with
  | some c =>
    if (getP m.procs c).is_finished then
      { m with
        procs := modifyIdx m.procs c (rrZombieFin time),
        cur := none, cq := 0,
        evs := m.evs ++ [Event.finished time (getP m.procs c).name],
        finRecs := m.finRecs ++ [(c, time)] }
    else m
  | none => m

/-- RR reselection step 2 (lines 342-347): preempt an unfinished current
process that has used a full quantum, appending it to the tail of the
ready queue. -/
def rrPreemptStep (quantum : Int) (m : Mid) : Mid :=
  match m.cur with
  | some c =>
    if !(getP m.procs c).is_finished && decide (quantum ≤ (m.cq : Int)) then
      { m with
        procs := modifyIdx m.procs c setReadyState,
        ready := m.ready ++ [c],
        cur := none, cq := 0,
        preIdx := some c }
    else m
  | none => m

/-- RR reselection step 3 (lines 350-357): dequeue the ready-queue head,
reset the quantum counter and emit "selected". -/
def rrPickStep (time : Nat) (m : Mid) : Mid :=
  match m.cur with
  | some _ => m
  | none =>
    match m.ready with
    | [] => m
    | j :: rest =>
      { m with
        procs := modifyIdx m.procs j (selectProc time),
        ready := rest, cur := some j, cq := 0,
        evs := m.evs ++ [Event.selected time (getP m.procs j).name (getP m.procs j).remaining],
        selIdx := some j }

/-- One round-robin tick (lines 318-372): arrivals; if reselection is
needed run the three reselection steps; then execute one unit (counting it
against the quantum) or emit "idle". -/
def rrBody (quantum : Int) (time : Nat) (ps1 : List Process) (ai1 : Nat) (ready1 : List Nat)
    (cur : Option Nat) (cq : Nat) (evA : List Event) : TickOut :=
  let m0 : Mid := ⟨ps1, ready1, cur, cq, [], none, none, []⟩
  let m := if rrNeeds quantum ps1 cur cq
    then rrPickStep time (rrPreemptStep quantum (rrFinishStep time m0))
    else m0
  match m.cur with
  | some c =>
    let ex := execUnit time m.procs c (m.cq + 1)
    ⟨⟨ex.procs, ai1, m.ready, ex.cur, ex.cq⟩, evA ++ m.evs ++ ex.evs,
     ⟨some c, m.selIdx, m.preIdx, m.finRecs ++ ex.finRecs⟩⟩
  | none =>
    ⟨⟨m.procs, ai1, m.ready, none, m.cq⟩, evA ++ m.evs ++ [Event.idle time],
     ⟨none, m.selIdx, m.preIdx, m.finRecs⟩⟩

/-- One round-robin tick: arrivals, then `rrBody`. -/
def rrTick (quantum : Int) (time : Nat) (s : SchedState) : TickOut :=
  let col := collectArrivals s.procs time s.arrIdx
  let ps1 := markReady s.procs col.2
  rrBody quantum time ps1 col.1 (s.ready ++ col.2) s.cur s.cq (arrivedEvents ps1 col.2 time)

/-- Result of a whole scheduler run: the events of each tick (in tick
order), the instrumentation trace, and the final working process list
(`procs_sorted`, which the schedulers return). -/
structure RunRes where
  blocks : List (List Event)
  trace : List TickInfo
  final : List Process
deriving DecidableEq, Repr

/-- The flat chronological event log. -/
def RunRes.events (r : RunRes) : List Event := r.blocks.flatten

/-- The common driver loop `while time < runfor`, one `tick` per time unit. -/
def runLoop (tick : Nat → SchedState → TickOut) (time fuel : Nat) (s : SchedState) : RunRes :=
  match fuel with
  | 0 => ⟨[], [], s.procs⟩
  | f+1 =>
    let o := tick time s
    let rest := runLoop tick (time+1) f o.state
    ⟨o.evs :: rest.blocks, o.info :: rest.trace, rest.final⟩

/-- Initial state of every scheduler: sorted working copy, empty queue,
nothing running. -/
def initState (procs : List Process) : SchedState :=
  ⟨sortByArrival procs, 0, [], none, 0⟩

/-- `schedule_fcfs(procs, runfor)` (lines 177-233). -/
def schedule_fcfs (procs : List Process) (runfor : Nat) : RunRes :=
  runLoop fcfsTick 0 runfor (initState procs)

/-- `schedule_sjf_preemptive(procs, runfor)` (lines 235-304). -/
def schedule_sjf_preemptive (procs : List Process) (runfor : Nat) : RunRes :=
  runLoop sjfTick 0 runfor (initState procs)

/-- `schedule_rr(procs, runfor, quantum)` (lines 306-374). -/
def schedule_rr (procs : List Process) (runfor : Nat) (quantum : Int) : RunRes :=
  runLoop (rrTick quantum) 0 runfor (initState procs)

/-- A raw process descriptor `(name, arrival, burst)` as parsed from a
`process name .. arrival .. burst ..` line. -/
def mkProcs (descs : List (String × Int × Int)) : List Process :=
  descs.map fun d => mkProcess d.1 d.2.1 d.2.2

/-- Right-justify in a minimum 3-character field, the Python `{x:3d}`. -/
def pad3 (s : String) : String :=
  if s.length < 3 then String.mk (List.replicate (3 - s.length) ' ') ++ s else s

/-- Render one event to its exact output line (lines 201, 217, 225, 228 etc). -/
def renderEvent : Event → String
  | .arrived t n => "Time " ++ pad3 (toString t) ++ " : " ++ n ++ " arrived"
  | .selected t n r => "Time " ++ pad3 (toString t) ++ " : " ++ n ++ " selected (burst " ++ pad3 (toString r) ++ ")"
  | .finished t n => "Time " ++ pad3 (toString t) ++ " : " ++ n ++ " finished"
  | .idle t => "Time " ++ pad3 (toString t) ++ " : Idle"

/-- `alg_display_name` (lines 156-164). -/
def alg_display_name (use : String) : String :=
  if use = "fcfs" ∨ use = "fifo" then "Using First In First Out"
  else if use = "sjf" then "Using preemptive Shortest Job First"
  else if use = "rr" then "Using Round Robin"
  else "Using " ++ use

/-- The parsed parameter set (the dict built by `parse_input`). -/
structure Params where
  processcount : Option Int
  runfor : Option Int
  use : Option String
  quantum : Option Int
  processes : List Process
deriving Repr

/-- The final validation of `parse_input` (lines 140-148); each failure is
the single fatal message printed by `error` before exiting. -/
def validateParams (p : Params) : Except String Unit :=
  if p.processcount = none then Except.error "Error: Missing parameter processcount"
  else if p.runfor = none then Except.error "Error: Missing parameter runfor"
  else if p.use = none then Except.error "Error: Missing parameter use"
  else if p.use = some "rr" ∧ p.quantum = none then
    Except.error "Error: Missing quantum parameter when use is 'rr'"
  else Except.ok ()

/-- Python `str(x if x is not None else 0)` used for the metric fields. -/
def optMetricStr (x : Option Int) : String :=
  match x with | some v => toString v | none => "0"

/-- The dict `proc_map = {p.name: p for p in final_procs_ref}` looked up at
`name`: with duplicate names the later entry wins. -/
def lookupByName (final : List Process) (nm : String) : Option Process :=
  (final.filter fun p => p.name == nm).getLast?

/-- One final metrics line for an original-order process (lines 423-442). -/
def metricLineFor (final : List Process) (op : Process) : String :=
  match lookupByName final op.name with
  | none => op.name ++ " did not finish"
  | some p =>
    match p.finish_time with
    | none => p.name ++ " did not finish"
    | some _ =>
      p.name ++ " wait " ++ optMetricStr p.wait_time ++
        " turnaround " ++ optMetricStr p.turnaround ++
        " response " ++ optMetricStr p.response_time

/-- Python `str` of the optional quantum (`str(None) = "None"`). -/
def quantumStr (q : Option Int) : String :=
  match q with | some v => toString v | none => "None"

/-- `run_scheduler(params)` (lines 380-444): dispatch on the algorithm,
then build the full ordered output line list.  A negative `runfor` makes
the Python `while time < runfor` loop run zero times, hence `Int.toNat`.
Calling the rr branch without a quantum makes Python raise a `TypeError`
when it first compares the counter with `None`; that path is unreachable
through `runProgram` and is modelled as an error result. -/
def run_scheduler (params : Params) : Except String (List String) :=
  let use := params.use.getD ""
  let runfor := params.runfor.getD 0
  let procs_input := params.processes
  let original_order := procs_input
  let res? : Except String RunRes :=
    if use = "fcfs" ∨ use = "fifo" then Except.ok (schedule_fcfs procs_input runfor.toNat)
    else if use = "sjf" then Except.ok (schedule_sjf_preemptive procs_input runfor.toNat)
    else if use = "rr" then
      match params.quantum with
      | some q => Except.ok (schedule_rr procs_input runfor.toNat q)
      | none => Except.error "TypeError: '>=' not supported between instances of 'int' and 'NoneType'"
    else Except.error ("Error: Unknown scheduling algorithm '" ++ use ++ "'")
  match res? with
  | Except.error e => Except.error e
  | Except.ok res =>
    Except.ok (
      [toString procs_input.length ++ " processes", alg_display_name use] ++
      (if use = "rr" then ["Quantum " ++ quantumStr params.quantum] else []) ++
      [""] ++
      res.events.map renderEvent ++
      ["", "Finished at time " ++ toString runfor, ""] ++
      original_order.map (metricLineFor res.final))

/-- The program pipeline after reading the file: validation (inside
`parse_input`), then `run_scheduler`; an error result means the single
fatal message was printed and no simulation output lines exist. -/
def runProgram (p : Params) : Except String (List String) :=
  match validateParams p with
  | Except.error e => Except.error e
  | Except.ok _ => run_scheduler p

/-- Number of "idle" events in an event list. -/
def idleCount (evs : List Event) : Nat :=
  evs.countP fun e => match e with | Event.idle _ => true | _ => false

/-- Total units of work executed so far, as recorded in a process list:
each execution decrements `remaining` by exactly one, so a process has
executed `burst - remaining` ticks. -/
def execTicks (ps : List Process) : Int :=
  (ps.map fun p => p.burst - p.remaining).sum

/-- Claim C1's per-tick property: a "selected" event names the process
executing this tick, and that process differs from the previous tick's
executor `prev`. -/
def selOnlyOnChange (prev : Option Nat) (i : TickInfo) : Prop :=
  ∀ p, i.sel = some p → i.exec = some p ∧ prev ≠ some p

/-- Round-robin variant of `selOnlyOnChange`: the newly selected process
differs from the previous tick's executor, unless it is the process that
was requeued on quantum expiry in this very tick (which round robin does
re-select, re-emitting "selected"). -/
def selOnlyOnChangeRR (prev : Option Nat) (i : TickInfo) : Prop :=
  ∀ p, i.sel = some p → i.exec = some p ∧ (prev ≠ some p ∨ i.pre = some p)

/-- Thread a per-tick predicate along a trace, passing each tick the
previous tick's executor. -/
def chain (P : Option Nat → TickInfo → Prop) : Option Nat → List TickInfo → Prop
  | _, [] => True
  | prev, i :: rest => P prev i ∧ chain P i.exec rest

/-- Ordering relation of claim C3 for two log positions (first argument
strictly earlier): an "arrived" event is never followed by a "finished"
event bearing the same tick label — equivalently, a finish labeled `T`
precedes every arrival labeled `T`. -/
def noArrThenFin (a b : Event) : Prop :=
  ∀ T n m, a = Event.arrived T n → b = Event.finished T m → False

/-- Labels of the events appended during tick `time`: arrivals carry label
`time` and finishes carry label `time + 1`. -/
def labelOk (time : Nat) : Event → Prop
  | Event.arrived t _ => t = time
  | Event.finished t _ => t = time + 1
  | _ => True

/-- Reachable-state invariant of all three schedulers, relative to the
previous tick's executor `last`: the arrival index is in range, queue
entries have arrived and are in range and are duplicate-free, a running
process has arrived, is not queued, is unfinished, executed the previous
tick and has a start time; the previous executor either still runs or is
finished and not queued; and a recorded finish time implies a recorded
start time. -/
def MidInv (ps : List Process) (ai : Nat) (ready : List Nat) (cur : Option Nat)
    (last : Option Nat) : Prop :=
  ai ≤ ps.length ∧
  (∀ j ∈ ready, j < ai) ∧
  ready.Nodup ∧
  (∀ c, cur = some c → c < ai ∧ c ∉ ready ∧ (getP ps c).is_finished = false ∧
    last = some c ∧ (getP ps c).start_time ≠ none) ∧
  (∀ q, last = some q → q < ai ∧
    (cur = some q ∨ ((getP ps q).is_finished = true ∧ q ∉ ready))) ∧
  (∀ j, (getP ps j).finish_time ≠ none → (getP ps j).start_time ≠ none)

/-- `MidInv` on a scheduler state. -/
def SInv (s : SchedState) (last : Option Nat) : Prop :=
  MidInv s.procs s.arrIdx s.ready s.cur last

/-- Round-robin allocation invariant for claim C6: while a process runs,
the quantum counter is positive and points back (from the end of the trace
built so far) to the tick at which the running process was last selected. -/
def RrS (s : SchedState) (pre : List TickInfo) : Prop :=
  ∀ i, s.cur = some i → 1 ≤ s.cq ∧ s.cq ≤ pre.length ∧
    ((pre[pre.length - s.cq]?).map TickInfo.sel) = some (some i)

/-- Claim C6's window property of a trace: any `q+1` consecutive ticks all
executed by the same process contain a re-selection of that process (at a
strictly later tick than the window start). -/
def RrW (q : Nat) (l : List TickInfo) : Prop :=
  ∀ t0 p, (∀ k, k ≤ q → ((l[t0 + k]?).map TickInfo.exec) = some (some p)) →
    ∃ k, 1 ≤ k ∧ k ≤ q ∧ ((l[t0 + k]?).map TickInfo.sel) = some (some p)

/-- Claim C10's final-state property: every finished process started. -/
def finishedImpliesStarted (ps : List Process) : Prop :=
  ∀ p ∈ ps, p.finish_time ≠ none → p.start_time ≠ none

/-- Core (simulation-relevant) fields shared by two process records:
everything except the cosmetic `state` string. -/
def sameCore (p q : Process) : Prop :=
  p.name = q.name ∧ p.arrival = q.arrival ∧ p.burst = q.burst ∧
    p.remaining = q.remaining ∧ p.start_time = q.start_time ∧ p.finish_time = q.finish_time

/-! Basic lemmas about the list-manipulation helpers. -/

lemma modifyIdx_length (ps : List Process) (i : Nat) (f : Process → Process) :
    (modifyIdx ps i f).length = ps.length := by
  induction ps generalizing i with
  | nil => rfl
  | cons p t ih => cases i with
    | zero => rfl
    | succ n => simpa [modifyIdx] using ih n

lemma getP_nil (i : Nat) : getP [] i = dfltProc := by cases i <;> rfl

lemma getP_cons_zero (p : Process) (t : List Process) : getP (p :: t) 0 = p := rfl

lemma getP_cons_succ (p : Process) (t : List Process) (n : Nat) :
    getP (p :: t) (n+1) = getP t n := rfl

lemma getP_modifyIdx_self (ps : List Process) (i : Nat) (f : Process → Process)
    (h : i < ps.length) : getP (modifyIdx ps i f) i = f (getP ps i) := by
  induction ps generalizing i with
  | nil => simp at h
  | cons p t ih =>
    cases i with
    | zero => rfl
    | succ n =>
      have := ih n (by simpa using h)
      simpa [modifyIdx, getP_cons_succ] using this

lemma getP_modifyIdx_ne (ps : List Process) (i j : Nat) (f : Process → Process)
    (h : j ≠ i) : getP (modifyIdx ps i f) j = getP ps j := by
  induction ps generalizing i j with
  | nil => simp [modifyIdx]
  | cons p t ih =>
    cases i with
    | zero =>
      cases j with
      | zero => exact absurd rfl h
      | succ m => rfl
    | succ n =>
      cases j with
      | zero => rfl
      | succ m =>
        have := ih n m (fun hc => h (by simp [hc]))
        simpa [modifyIdx, getP_cons_succ] using this

lemma modifyIdx_oob (ps : List Process) (i : Nat) (f : Process → Process)
    (h : ¬ i < ps.length) : modifyIdx ps i f = ps := by
  induction ps generalizing i with
  | nil => rfl
  | cons p t ih =>
    cases i with
    | zero => simp at h
    | succ n =>
      have : ¬ n < t.length := fun hc => h (by simpa using Nat.succ_lt_succ hc)
      simp [modifyIdx, ih n this]

lemma getP_modifyIdx_cases (ps : List Process) (i j : Nat) (f : Process → Process) :
    getP (modifyIdx ps i f) j = getP ps j ∨
      (j = i ∧ i < ps.length ∧ getP (modifyIdx ps i f) j = f (getP ps j)) := by
  by_cases hji : j = i
  · subst hji
    by_cases hlt : j < ps.length
    · exact Or.inr ⟨rfl, hlt, getP_modifyIdx_self ps j f hlt⟩
    · rw [modifyIdx_oob ps j f hlt]
      exact Or.inl rfl
  · exact Or.inl (getP_modifyIdx_ne ps i j f hji)

lemma sameCore_refl (p : Process) : sameCore p p := by simp [sameCore]

lemma sameCore_trans {p q r : Process} (h1 : sameCore p q) (h2 : sameCore q r) :
    sameCore p r := by
  obtain ⟨a1, a2, a3, a4, a5, a6⟩ := h1
  obtain ⟨b1, b2, b3, b4, b5, b6⟩ := h2
  exact ⟨a1.trans b1, a2.trans b2, a3.trans b3, a4.trans b4, a5.trans b5, a6.trans b6⟩

lemma sameCore_setReady (p : Process) : sameCore (setReadyState p) p := by
  simp [sameCore, setReadyState]

lemma getP_modifyIdx_sameCore (ps : List Process) (i j : Nat) (f : Process → Process)
    (hf : ∀ p, sameCore (f p) p) :
    sameCore (getP (modifyIdx ps i f) j) (getP ps j) := by
  rcases getP_modifyIdx_cases ps i j f with h | ⟨_, _, h⟩
  · rw [h]; exact sameCore_refl _
  · rw [h]; exact hf _

lemma getP_markReady (ps : List Process) (js : List Nat) (j : Nat) :
    sameCore (getP (markReady ps js) j) (getP ps j) := by
  induction js generalizing ps with
  | nil => exact sameCore_refl _
  | cons a t ih =>
    have h1 : sameCore (getP (markReady (modifyIdx ps a setReadyState) t) j)
        (getP (modifyIdx ps a setReadyState) j) := ih _
    have h2 : sameCore (getP (modifyIdx ps a setReadyState) j) (getP ps j) :=
      getP_modifyIdx_sameCore ps a j _ sameCore_setReady
    exact sameCore_trans h1 h2

lemma markReady_length (ps : List Process) (js : List Nat) :
    (markReady ps js).length = ps.length := by
  induction js generalizing ps with
  | nil => rfl
  | cons a t ih =>
    have h1 : markReady ps (a :: t) = markReady (modifyIdx ps a setReadyState) t := rfl
    rw [h1, ih (modifyIdx ps a setReadyState), modifyIdx_length]

lemma sameCore_is_finished {p q : Process} (h : sameCore p q) :
    p.is_finished = q.is_finished := by
  obtain ⟨_, _, _, h4, _, _⟩ := h
  simp [Process.is_finished, h4]

lemma sameCore_start {p q : Process} (h : sameCore p q) : p.start_time = q.start_time :=
  h.2.2.2.2.1

lemma sameCore_finish {p q : Process} (h : sameCore p q) : p.finish_time = q.finish_time :=
  h.2.2.2.2.2

/-! Arrival-scan and sum lemmas. -/

lemma collectArrivalsAux_spec (ps : List Process) (time : Nat) :
    ∀ fuel arrIdx, arrIdx ≤ ps.length →
      arrIdx ≤ (collectArrivalsAux ps time arrIdx fuel).1 ∧
      (collectArrivalsAux ps time arrIdx fuel).1 ≤ ps.length ∧
      (collectArrivalsAux ps time arrIdx fuel).2 =
        List.range' arrIdx ((collectArrivalsAux ps time arrIdx fuel).1 - arrIdx) := by
  intro fuel
  induction fuel with
  | zero => intro arrIdx h; exact ⟨le_refl _, h, by simp [collectArrivalsAux]⟩
  | succ f ih =>
    intro arrIdx h
    cases hget : ps[arrIdx]? with
    | none =>
      have hstep : collectArrivalsAux ps time arrIdx (f+1) = (arrIdx, []) := by
        simp [collectArrivalsAux, hget]
      rw [hstep]
      exact ⟨le_refl _, h, by simp⟩
    | some p =>
      have hlt : arrIdx < ps.length := by
        by_contra hc
        rw [List.getElem?_eq_none (le_of_not_lt hc)] at hget
        exact Option.noConfusion hget
      by_cases harr : p.arrival = (time : Int)
      · have hr := ih (arrIdx + 1) hlt
        have hle : arrIdx + 1 ≤ (collectArrivalsAux ps time (arrIdx+1) f).1 := hr.1
        have hstep : collectArrivalsAux ps time arrIdx (f+1) =
            ((collectArrivalsAux ps time (arrIdx+1) f).1,
              arrIdx :: (collectArrivalsAux ps time (arrIdx+1) f).2) := by
          simp [collectArrivalsAux, hget, harr]
        rw [hstep]
        refine ⟨by omega, hr.2.1, ?_⟩
        rw [hr.2.2]
        have h2 : (collectArrivalsAux ps time (arrIdx+1) f).1 - arrIdx =
            ((collectArrivalsAux ps time (arrIdx+1) f).1 - (arrIdx+1)) + 1 := by omega
        rw [h2, List.range'_succ]
      · have hstep : collectArrivalsAux ps time arrIdx (f+1) = (arrIdx, []) := by
          simp [collectArrivalsAux, hget, harr]
        rw [hstep]
        exact ⟨le_refl _, h, by simp⟩

lemma collectArrivals_spec (ps : List Process) (time arrIdx : Nat) (h : arrIdx ≤ ps.length) :
    arrIdx ≤ (collectArrivals ps time arrIdx).1 ∧
    (collectArrivals ps time arrIdx).1 ≤ ps.length ∧
    (∀ j ∈ (collectArrivals ps time arrIdx).2, arrIdx ≤ j ∧ j < (collectArrivals ps time arrIdx).1) ∧
    (collectArrivals ps time arrIdx).2.Nodup := by
  have hs := collectArrivalsAux_spec ps time (ps.length - arrIdx) arrIdx h
  refine ⟨hs.1, hs.2.1, ?_, ?_⟩
  · intro j hj
    rw [collectArrivals] at *
    rw [hs.2.2] at hj
    have := List.mem_range'_1.mp hj
    omega
  · rw [collectArrivals, hs.2.2]
    simp [List.nodup_range']


lemma execTicks_nil : execTicks [] = 0 := rfl

lemma execTicks_modifyIdx_same (ps : List Process) (i : Nat) (f : Process → Process)
    (hf : ∀ p, (f p).burst = p.burst ∧ (f p).remaining = p.remaining) :
    execTicks (modifyIdx ps i f) = execTicks ps := by
  induction ps generalizing i with
  | nil => rfl
  | cons p t ih =>
    cases i with
    | zero => simp [modifyIdx, execTicks, (hf p).1, (hf p).2]
    | succ n =>
      have := ih n
      simp only [modifyIdx, execTicks, List.map_cons, List.sum_cons] at *
      rw [this]

lemma execTicks_modifyIdx_decRem (ps : List Process) (i : Nat) (h : i < ps.length) :
    execTicks (modifyIdx ps i decRem) = execTicks ps + 1 := by
  induction ps generalizing i with
  | nil => simp at h
  | cons p t ih =>
    cases i with
    | zero =>
      simp only [modifyIdx, execTicks, List.map_cons, List.sum_cons, decRem]
      ring
    | succ n =>
      have := ih n (by simpa using h)
      simp only [modifyIdx, execTicks, List.map_cons, List.sum_cons] at *
      rw [this]
      ring

lemma execTicks_markReady (ps : List Process) (js : List Nat) :
    execTicks (markReady ps js) = execTicks ps := by
  induction js generalizing ps with
  | nil => rfl
  | cons a t ih =>
    have h1 : markReady ps (a :: t) = markReady (modifyIdx ps a setReadyState) t := rfl
    rw [h1, ih, execTicks_modifyIdx_same]
    intro p
    exact ⟨rfl, rfl⟩

/-! Lemmas about the Python `min` model and the SJF key order. -/

lemma keyLt_irrefl (a : Int × Int × String) : keyLt a a = false := by
  simp [keyLt]

lemma keyLt_trans {a b c : Int × Int × String}
    (h1 : keyLt a b = true) (h2 : keyLt b c = true) : keyLt a c = true := by
  simp only [keyLt, Bool.or_eq_true, Bool.and_eq_true, decide_eq_true_eq] at *
  rcases h1 with h1 | ⟨e1, h1⟩
  · rcases h2 with h2 | ⟨e2, h2⟩
    · exact Or.inl (h1.trans h2)
    · exact Or.inl (e2 ▸ h1)
  · rcases h2 with h2 | ⟨e2, h2⟩
    · exact Or.inl (e1 ▸ h2)
    · refine Or.inr ⟨e1.trans e2, ?_⟩
      rcases h1 with h1 | ⟨f1, h1⟩
      · rcases h2 with h2 | ⟨f2, h2⟩
        · exact Or.inl (h1.trans h2)
        · exact Or.inl (f2 ▸ h1)
      · rcases h2 with h2 | ⟨f2, h2⟩
        · exact Or.inl (f1 ▸ h2)
        · exact Or.inr ⟨f1.trans f2, lt_trans h1 h2⟩

lemma pyMin_mem (lt : Nat → Nat → Bool) (a : Nat) (l : List Nat) :
    pyMin lt a l = a ∨ pyMin lt a l ∈ l := by
  induction l generalizing a with
  | nil => exact Or.inl rfl
  | cons b t ih =>
    have hstep : pyMin lt a (b :: t) = pyMin lt (if lt b a then b else a) t := rfl
    rw [hstep]
    by_cases hb : lt b a = true
    · rw [if_pos hb]
      rcases ih b with h | h
      · rw [h]; exact Or.inr (List.mem_cons_self b t)
      · exact Or.inr (List.mem_cons_of_mem b h)
    · rw [if_neg hb]
      rcases ih a with h | h
      · exact Or.inl h
      · exact Or.inr (List.mem_cons_of_mem b h)

lemma pyMin_acc_lt (lt : Nat → Nat → Bool)
    (htrans : ∀ x y z, lt x y = true → lt y z = true → lt x z = true)
    (l : List Nat) (a : Nat) :
    pyMin lt a l = a ∨ lt (pyMin lt a l) a = true := by
  induction l generalizing a with
  | nil => exact Or.inl rfl
  | cons b t ih =>
    have hstep : pyMin lt a (b :: t) = pyMin lt (if lt b a then b else a) t := rfl
    rw [hstep]
    by_cases hb : lt b a = true
    · rw [if_pos hb]
      rcases ih b with h | h
      · rw [h]; exact Or.inr hb
      · exact Or.inr (htrans _ _ _ h hb)
    · rw [if_neg hb]
      exact ih a

lemma pyMin_not_lt (lt : Nat → Nat → Bool)
    (htrans : ∀ x y z, lt x y = true → lt y z = true → lt x z = true)
    (hirr : ∀ x, lt x x = false)
    (l : List Nat) (a : Nat) :
    ∀ x, (x = a ∨ x ∈ l) → lt x (pyMin lt a l) = false := by
  induction l generalizing a with
  | nil =>
    intro x hx
    rcases hx with rfl | h
    · exact hirr x
    · simp at h
  | cons b t ih =>
    intro x hx
    have hstep : pyMin lt a (b :: t) = pyMin lt (if lt b a then b else a) t := rfl
    rw [hstep]
    by_cases hb : lt b a = true
    · rw [if_pos hb]
      rcases hx with hxa | hx
      · -- x is the displaced accumulator a: transitivity through b refutes lt x result
        by_contra hc
        have hxlt : lt x (pyMin lt b t) = true := by
          cases h : lt x (pyMin lt b t)
          · exact absurd h hc
          · rfl
        have hbres : lt b (pyMin lt b t) = false := ih b b (Or.inl rfl)
        rw [hxa] at hxlt
        have hcontra : lt b (pyMin lt b t) = true := htrans _ _ _ hb hxlt
        rw [hbres] at hcontra
        exact Bool.noConfusion hcontra
      · rcases List.mem_cons.mp hx with hxb | hx
        · exact ih b x (Or.inl hxb)
        · exact ih b x (Or.inr hx)
    · rw [if_neg hb]
      rcases hx with hxa | hx
      · exact ih a x (Or.inl hxa)
      · rcases List.mem_cons.mp hx with hxb | hx
        · -- x = b and the accumulator stays a: b is not below the result
          by_contra hc
          have hxlt : lt x (pyMin lt a t) = true := by
            cases h : lt x (pyMin lt a t)
            · exact absurd h hc
            · rfl
          rcases pyMin_acc_lt lt htrans t a with h1 | h1
          · rw [h1, hxb] at hxlt
            exact hb hxlt
          · have h2 : lt x a = true := htrans _ _ _ hxlt h1
            rw [hxb] at h2
            exact hb h2
        · exact ih a x (Or.inr hx)

/-! Generic lemmas about the driver loop. -/

lemma runLoop_trace_length (tick : Nat → SchedState → TickOut) :
    ∀ fuel time s, (runLoop tick time fuel s).trace.length = fuel := by
  intro fuel
  induction fuel with
  | zero => intro time s; rfl
  | succ f ih =>
    intro time s
    show ((tick time s).info :: (runLoop tick (time+1) f (tick time s).state).trace).length = f + 1
    rw [List.length_cons, ih]

lemma runLoop_events_eq (tick : Nat → SchedState → TickOut) (fuel time : Nat) (s : SchedState) :
    (runLoop tick time (fuel+1) s).events =
      (tick time s).evs ++ (runLoop tick (time+1) fuel (tick time s).state).events := by
  show ((tick time s).evs :: (runLoop tick (time+1) fuel (tick time s).state).blocks).flatten = _
  rw [List.flatten_cons]
  rfl

lemma runLoop_chain (tick : Nat → SchedState → TickOut)
    (InvP : SchedState → Option Nat → Prop) (P : Option Nat → TickInfo → Prop)
    (H : ∀ time s last, InvP s last →
      InvP (tick time s).state (tick time s).info.exec ∧ P last (tick time s).info) :
    ∀ fuel time s last, InvP s last → chain P last (runLoop tick time fuel s).trace := by
  intro fuel
  induction fuel with
  | zero => intro time s last _; trivial
  | succ f ih =>
    intro time s last h
    have hh := H time s last h
    exact ⟨hh.2, ih (time+1) (tick time s).state (tick time s).info.exec hh.1⟩

lemma runLoop_finrecs (tick : Nat → SchedState → TickOut)
    (InvP : SchedState → Option Nat → Prop)
    (H : ∀ time s last, InvP s last →
      InvP (tick time s).state (tick time s).info.exec ∧
      ∀ pr ∈ (tick time s).info.finRecs, pr.2 = time + 1) :
    ∀ fuel time s last, InvP s last →
      ∀ t info, (runLoop tick time fuel s).trace[t]? = some info →
        ∀ pr ∈ info.finRecs, pr.2 = time + t + 1 := by
  intro fuel
  induction fuel with
  | zero =>
    intro time s last _ t info hinfo
    simp [runLoop] at hinfo
  | succ f ih =>
    intro time s last h t info hinfo
    have hh := H time s last h
    have htr : (runLoop tick time (f+1) s).trace =
        (tick time s).info :: (runLoop tick (time+1) f (tick time s).state).trace := rfl
    rw [htr] at hinfo
    cases t with
    | zero =>
      simp only [List.getElem?_cons_zero, Option.some.injEq] at hinfo
      subst hinfo
      intro pr hpr
      have := hh.2 pr hpr
      omega
    | succ u =>
      simp only [List.getElem?_cons_succ] at hinfo
      intro pr hpr
      have := ih (time+1) (tick time s).state (tick time s).info.exec hh.1 u info hinfo pr hpr
      omega

lemma runLoop_sum (tick : Nat → SchedState → TickOut)
    (InvP : SchedState → Option Nat → Prop)
    (H : ∀ time s last, InvP s last →
      InvP (tick time s).state (tick time s).info.exec ∧
      execTicks (tick time s).state.procs + (idleCount (tick time s).evs : Int) =
        execTicks s.procs + 1) :
    ∀ fuel time s last, InvP s last →
      execTicks (runLoop tick time fuel s).final +
        (idleCount (runLoop tick time fuel s).events : Int) = execTicks s.procs + fuel := by
  intro fuel
  induction fuel with
  | zero => intro time s last _; simp [runLoop, RunRes.events, idleCount]
  | succ f ih =>
    intro time s last h
    have hh := H time s last h
    rw [runLoop_events_eq]
    have hfinal : (runLoop tick time (f+1) s).final =
        (runLoop tick (time+1) f (tick time s).state).final := rfl
    rw [hfinal]
    have hidle : idleCount ((tick time s).evs ++
        (runLoop tick (time+1) f (tick time s).state).events) =
        idleCount (tick time s).evs +
          idleCount (runLoop tick (time+1) f (tick time s).state).events := by
      simp [idleCount, List.countP_append]
    rw [hidle]
    have hrec := ih (time+1) (tick time s).state (tick time s).info.exec hh.1
    push_cast
    push_cast at hrec hh
    linarith [hh.2, hrec]

lemma runLoop_final_inv (tick : Nat → SchedState → TickOut)
    (InvP : SchedState → Option Nat → Prop) (G : List Process → Prop)
    (H : ∀ time s last, InvP s last → InvP (tick time s).state (tick time s).info.exec)
    (HG : ∀ s last, InvP s last → G s.procs) :
    ∀ fuel time s last, InvP s last → G (runLoop tick time fuel s).final := by
  intro fuel
  induction fuel with
  | zero => intro time s last h; exact HG s last h
  | succ f ih =>
    intro time s last h
    exact ih (time+1) (tick time s).state (tick time s).info.exec (H time s last h)

lemma runLoop_labels (tick : Nat → SchedState → TickOut)
    (InvP : SchedState → Option Nat → Prop)
    (H : ∀ time s last, InvP s last →
      InvP (tick time s).state (tick time s).info.exec ∧
      ∀ e ∈ (tick time s).evs, labelOk time e) :
    ∀ fuel time s last, InvP s last →
      (∀ e ∈ (runLoop tick time fuel s).events,
        (∀ T n, e = Event.arrived T n → time ≤ T) ∧
        (∀ T n, e = Event.finished T n → time + 1 ≤ T)) ∧
      (runLoop tick time fuel s).events.Pairwise noArrThenFin := by
  intro fuel
  induction fuel with
  | zero =>
    intro time s last _
    constructor
    · intro e he; simp [runLoop, RunRes.events] at he
    · simp [runLoop, RunRes.events]
  | succ f ih =>
    intro time s last h
    have hh := H time s last h
    have hrest := ih (time+1) (tick time s).state (tick time s).info.exec hh.1
    rw [runLoop_events_eq]
    constructor
    · intro e he
      rcases List.mem_append.mp he with he | he
      · have hl := hh.2 e he
        constructor
        · intro T n hT
          subst hT
          simp only [labelOk] at hl
          omega
        · intro T n hT
          subst hT
          simp only [labelOk] at hl
          omega
      · have := hrest.1 e he
        constructor
        · intro T n hT
          have := this.1 T n hT
          omega
        · intro T n hT
          have := this.2 T n hT
          omega
    · rw [List.pairwise_append]
      refine ⟨?_, hrest.2, ?_⟩
      · -- within one tick block arrivals are labeled `time` and finishes `time+1`
        apply List.pairwise_of_forall_mem_list
        intro a ha b hb
        intro T n m haT hbT
        have hla := hh.2 a ha
        have hlb := hh.2 b hb
        subst haT
        subst hbT
        simp only [labelOk] at hla hlb
        omega
      · intro a ha b hb
        intro T n m haT hbT
        have hla := hh.2 a ha
        have hlb := (hrest.1 b hb).2 T m hbT
        subst haT
        simp only [labelOk] at hla
        omega

/-! Field-preservation micro-lemmas for the per-process updates. -/

lemma selectProc_start_ne (time : Nat) (p : Process) :
    (selectProc time p).start_time ≠ none := by
  cases h : p.start_time <;> simp [selectProc, h]

lemma selectProc_core (time : Nat) (p : Process) :
    (selectProc time p).name = p.name ∧ (selectProc time p).arrival = p.arrival ∧
    (selectProc time p).burst = p.burst ∧ (selectProc time p).remaining = p.remaining ∧
    (selectProc time p).finish_time = p.finish_time := by
  simp [selectProc]

lemma decRem_core (p : Process) :
    (decRem p).name = p.name ∧ (decRem p).arrival = p.arrival ∧
    (decRem p).burst = p.burst ∧ (decRem p).start_time = p.start_time ∧
    (decRem p).finish_time = p.finish_time := by
  simp [decRem]

lemma finishAt_core (t : Nat) (p : Process) :
    (finishAt t p).name = p.name ∧ (finishAt t p).arrival = p.arrival ∧
    (finishAt t p).burst = p.burst ∧ (finishAt t p).remaining = p.remaining ∧
    (finishAt t p).start_time = p.start_time ∧ (finishAt t p).finish_time = some t := by
  simp [finishAt]

lemma rrZombieFin_core (t : Nat) (p : Process) :
    (rrZombieFin t p).name = p.name ∧ (rrZombieFin t p).arrival = p.arrival ∧
    (rrZombieFin t p).burst = p.burst ∧ (rrZombieFin t p).remaining = p.remaining ∧
    (rrZombieFin t p).start_time = p.start_time ∧ (rrZombieFin t p).finish_time ≠ none := by
  cases h : p.finish_time <;> simp [rrZombieFin, h]

lemma arrivedEvents_labels (ps : List Process) (js : List Nat) (time : Nat) :
    ∀ e ∈ arrivedEvents ps js time, labelOk time e := by
  intro e he
  simp only [arrivedEvents, List.mem_map] at he
  obtain ⟨j, _, rfl⟩ := he
  simp [labelOk]

lemma arrivedEvents_idle (ps : List Process) (js : List Nat) (time : Nat) :
    idleCount (arrivedEvents ps js time) = 0 := by
  rw [idleCount, List.countP_eq_zero]
  intro e he
  simp only [arrivedEvents, List.mem_map] at he
  obtain ⟨j, _, rfl⟩ := he
  simp

lemma idleCount_append (l1 l2 : List Event) :
    idleCount (l1 ++ l2) = idleCount l1 + idleCount l2 := by
  simp [idleCount, List.countP_append]

/-! The arrival phase preserves the scheduler invariant. -/

lemma arrival_phase_inv (time : Nat) (s : SchedState) (last : Option Nat) (h : SInv s last) :
    MidInv (markReady s.procs (collectArrivals s.procs time s.arrIdx).2)
      (collectArrivals s.procs time s.arrIdx).1
      (s.ready ++ (collectArrivals s.procs time s.arrIdx).2) s.cur last := by
  obtain ⟨h1, h2, h3, h4, h5, h6⟩ := h
  have hcol := collectArrivals_spec s.procs time s.arrIdx h1
  obtain ⟨hc1, hc2, hc3, hc4⟩ := hcol
  have hlen : (markReady s.procs (collectArrivals s.procs time s.arrIdx).2).length =
      s.procs.length := markReady_length _ _
  refine ⟨?_, ?_, ?_, ?_, ?_, ?_⟩
  · rw [hlen]; exact hc2
  · intro j hj
    rcases List.mem_append.mp hj with hj | hj
    · exact lt_of_lt_of_le (h2 j hj) hc1
    · exact (hc3 j hj).2
  · rw [List.nodup_append]
    exact ⟨h3, hc4, fun j hj hj2 => absurd (hc3 j hj2).1 (not_le.mpr (h2 j hj))⟩
  · intro c hc
    have h4c := h4 c hc
    have hcore := getP_markReady s.procs (collectArrivals s.procs time s.arrIdx).2 c
    refine ⟨lt_of_lt_of_le h4c.1 hc1, ?_, ?_, h4c.2.2.2.1, ?_⟩
    · intro hmem
      rcases List.mem_append.mp hmem with hm | hm
      · exact h4c.2.1 hm
      · exact absurd (hc3 c hm).1 (not_le.mpr h4c.1)
    · rw [sameCore_is_finished hcore]; exact h4c.2.2.1
    · rw [sameCore_start hcore]; exact h4c.2.2.2.2
  · intro q hq
    have h5q := h5 q hq
    have hcore := getP_markReady s.procs (collectArrivals s.procs time s.arrIdx).2 q
    refine ⟨lt_of_lt_of_le h5q.1 hc1, ?_⟩
    rcases h5q.2 with hl | hr
    · exact Or.inl hl
    · refine Or.inr ⟨by rw [sameCore_is_finished hcore]; exact hr.1, ?_⟩
      intro hmem
      rcases List.mem_append.mp hmem with hm | hm
      · exact hr.2 hm
      · exact absurd (hc3 q hm).1 (not_le.mpr h5q.1)
  · intro j
    have hcore := getP_markReady s.procs (collectArrivals s.procs time s.arrIdx).2 j
    rw [sameCore_finish hcore, sameCore_start hcore]
    exact h6 j

/-! FCFS tick preservation. -/

lemma fcfsBody_pres (time : Nat) (ps1 : List Process) (ai1 : Nat) (ready1 : List Nat)
    (cur : Option Nat) (evA : List Event) (last : Option Nat)
    (hmi : MidInv ps1 ai1 ready1 cur last)
    (hA : ∀ e ∈ evA, labelOk time e) (hA0 : idleCount evA = 0) :
    MidInv (fcfsBody time ps1 ai1 ready1 cur evA).state.procs
      (fcfsBody time ps1 ai1 ready1 cur evA).state.arrIdx
      (fcfsBody time ps1 ai1 ready1 cur evA).state.ready
      (fcfsBody time ps1 ai1 ready1 cur evA).state.cur
      (fcfsBody time ps1 ai1 ready1 cur evA).info.exec ∧
    selOnlyOnChange last (fcfsBody time ps1 ai1 ready1 cur evA).info ∧
    (∀ e ∈ (fcfsBody time ps1 ai1 ready1 cur evA).evs, labelOk time e) ∧
    (∀ pr ∈ (fcfsBody time ps1 ai1 ready1 cur evA).info.finRecs, pr.2 = time + 1) ∧
    execTicks (fcfsBody time ps1 ai1 ready1 cur evA).state.procs +
      (idleCount (fcfsBody time ps1 ai1 ready1 cur evA).evs : Int) = execTicks ps1 + 1 := by
  obtain ⟨h1, h2, h3, h4, h5, h6⟩ := hmi
  cases cur with
  | some c =>
    have hc := h4 c rfl
    have hfin : (getP ps1 c).is_finished = false := hc.2.2.1
    have hclen : c < ps1.length := lt_of_lt_of_le hc.1 h1
    have hclen2 : c < (modifyIdx ps1 c decRem).length := by rw [modifyIdx_length]; exact hclen
    have hgd : getP (modifyIdx ps1 c decRem) c = decRem (getP ps1 c) :=
      getP_modifyIdx_self ps1 c decRem hclen
    by_cases hdec : (getP (modifyIdx ps1 c decRem) c).is_finished = true
    · -- the running process executes its last unit and finishes at time+1
      have hbody : fcfsBody time ps1 ai1 ready1 (some c) evA =
          ⟨⟨modifyIdx (modifyIdx ps1 c decRem) c (finishAt (time+1)), ai1, ready1, none, 0⟩,
           evA ++ [Event.finished (time+1) (getP (modifyIdx ps1 c decRem) c).name],
           ⟨some c, none, none, [(c, time+1)]⟩⟩ := by
        simp [fcfsBody, fcfsSelect, execUnit, hfin, hdec]
      rw [hbody]
      have hps' : ∀ j, j ≠ c →
          getP (modifyIdx (modifyIdx ps1 c decRem) c (finishAt (time+1))) j = getP ps1 j := by
        intro j hj
        rw [getP_modifyIdx_ne _ _ _ _ hj, getP_modifyIdx_ne _ _ _ _ hj]
      have hpsc : getP (modifyIdx (modifyIdx ps1 c decRem) c (finishAt (time+1))) c =
          finishAt (time+1) (decRem (getP ps1 c)) := by
        rw [getP_modifyIdx_self _ _ _ hclen2, hgd]
      refine ⟨⟨?_, h2, h3, ?_, ?_, ?_⟩, ?_, ?_, ?_, ?_⟩
      · rw [modifyIdx_length, modifyIdx_length]; exact h1
      · intro c' hc'; exact Option.noConfusion hc'
      · intro q hq
        have hqc : q = c := (Option.some.inj hq).symm
        subst hqc
        refine ⟨hc.1, Or.inr ⟨?_, hc.2.1⟩⟩
        rw [hpsc]
        have := hdec
        rw [hgd] at this
        simpa [Process.is_finished, finishAt] using this
      · intro j hfj
        by_cases hjc : j = c
        · subst hjc
          rw [hpsc] at hfj ⊢
          simpa [finishAt, decRem] using hc.2.2.2.2
        · rw [hps' j hjc] at hfj ⊢
          exact h6 j hfj
      · intro p hp; exact Option.noConfusion hp
      · intro e he
        rcases List.mem_append.mp he with he | he
        · exact hA e he
        · simp only [List.mem_singleton] at he
          subst he; simp [labelOk]
      · intro pr hpr
        simp only [List.mem_singleton] at hpr
        subst hpr; rfl
      · rw [execTicks_modifyIdx_same _ _ _ (fun p => ⟨(finishAt_core _ p).2.2.1, (finishAt_core _ p).2.2.2.1⟩),
          execTicks_modifyIdx_decRem ps1 c hclen, idleCount_append, hA0]
        simp [idleCount]
    · -- the running process executes one unit and keeps running
      have hbody : fcfsBody time ps1 ai1 ready1 (some c) evA =
          ⟨⟨modifyIdx ps1 c decRem, ai1, ready1, some c, 0⟩, evA,
           ⟨some c, none, none, []⟩⟩ := by
        simp [fcfsBody, fcfsSelect, execUnit, hfin, hdec]
      rw [hbody]
      refine ⟨⟨?_, h2, h3, ?_, ?_, ?_⟩, ?_, ?_, ?_, ?_⟩
      · rw [modifyIdx_length]; exact h1
      · intro c' hc'
        have hcc : c' = c := (Option.some.inj hc').symm
        subst hcc
        refine ⟨hc.1, hc.2.1, ?_, rfl, ?_⟩
        · simpa using hdec
        · rw [hgd]
          simpa [decRem] using hc.2.2.2.2
      · intro q hq
        have hqc : q = c := (Option.some.inj hq).symm
        subst hqc
        exact ⟨hc.1, Or.inl rfl⟩
      · intro j hfj
        by_cases hjc : j = c
        · subst hjc
          rw [hgd] at hfj ⊢
          simp only [decRem] at hfj ⊢
          exact h6 _ hfj
        · rw [getP_modifyIdx_ne _ _ _ _ hjc] at hfj ⊢
          exact h6 j hfj
      · intro p hp; exact Option.noConfusion hp
      · intro e he; exact hA e he
      · intro pr hpr; simp at hpr
      · rw [execTicks_modifyIdx_decRem ps1 c hclen, hA0]
        simp
  | none =>
    cases hr : ready1 with
    | nil =>
      have hbody : fcfsBody time ps1 ai1 [] none evA =
          ⟨⟨ps1, ai1, [], none, 0⟩, evA ++ [Event.idle time], ⟨none, none, none, []⟩⟩ := by
        simp [fcfsBody, fcfsSelect, fcfsPick]
      rw [hr] at h2 h3
      rw [hbody]
      refine ⟨⟨h1, h2, h3, ?_, ?_, h6⟩, ?_, ?_, ?_, ?_⟩
      · intro c' hc'; exact Option.noConfusion hc'
      · intro q hq; exact Option.noConfusion hq
      · intro p hp; exact Option.noConfusion hp
      · intro e he
        rcases List.mem_append.mp he with he | he
        · exact hA e he
        · simp only [List.mem_singleton] at he
          subst he; simp [labelOk]
      · intro pr hpr; simp at hpr
      · rw [idleCount_append, hA0]
        simp [idleCount]
    | cons j rest =>
      have hjr : j ∈ ready1 := by rw [hr]; exact List.mem_cons_self _ _
      have hjai : j < ai1 := h2 j hjr
      have hjlen : j < ps1.length := lt_of_lt_of_le hjai h1
      have hjlen2 : j < (modifyIdx ps1 j (selectProc time)).length := by
        rw [modifyIdx_length]; exact hjlen
      have hjlen3 : j < (modifyIdx (modifyIdx ps1 j (selectProc time)) j decRem).length := by
        rw [modifyIdx_length]; exact hjlen2
      have hjrest : j ∉ rest := by
        rw [hr] at h3
        exact (List.nodup_cons.mp h3).1
      have hrest2 : ∀ i ∈ rest, i < ai1 := fun i hi => h2 i (by rw [hr]; exact List.mem_cons_of_mem _ hi)
      have hrestnd : rest.Nodup := by
        rw [hr] at h3
        exact (List.nodup_cons.mp h3).2
      have hgsel : getP (modifyIdx ps1 j (selectProc time)) j = selectProc time (getP ps1 j) :=
        getP_modifyIdx_self ps1 j _ hjlen
      have hgsd : getP (modifyIdx (modifyIdx ps1 j (selectProc time)) j decRem) j =
          decRem (selectProc time (getP ps1 j)) := by
        rw [getP_modifyIdx_self _ _ _ hjlen2, hgsel]
      have hlastne : ∀ p, last = some p → p ≠ j := by
        intro p hp hpj
        subst hpj
        have h5p := h5 p hp
        rcases h5p.2 with hl | hr2
        · exact Option.noConfusion hl
        · exact hr2.2 hjr
      by_cases hdec : (getP (modifyIdx (modifyIdx ps1 j (selectProc time)) j decRem) j).is_finished = true
      · -- the dequeued process finishes in its first (only remaining) unit
        have hbody : fcfsBody time ps1 ai1 (j :: rest) none evA =
            ⟨⟨modifyIdx (modifyIdx (modifyIdx ps1 j (selectProc time)) j decRem) j (finishAt (time+1)),
              ai1, rest, none, 0⟩,
             evA ++ [Event.selected time (getP ps1 j).name (getP ps1 j).remaining,
               Event.finished (time+1) (getP (modifyIdx (modifyIdx ps1 j (selectProc time)) j decRem) j).name],
             ⟨some j, some j, none, [(j, time+1)]⟩⟩ := by
          simp [fcfsBody, fcfsSelect, fcfsPick, execUnit, hdec]
        rw [hbody]
        have hps' : ∀ i, i ≠ j →
            getP (modifyIdx (modifyIdx (modifyIdx ps1 j (selectProc time)) j decRem) j (finishAt (time+1))) i
              = getP ps1 i := by
          intro i hi
          rw [getP_modifyIdx_ne _ _ _ _ hi, getP_modifyIdx_ne _ _ _ _ hi, getP_modifyIdx_ne _ _ _ _ hi]
        have hpsj : getP (modifyIdx (modifyIdx (modifyIdx ps1 j (selectProc time)) j decRem) j (finishAt (time+1))) j
            = finishAt (time+1) (decRem (selectProc time (getP ps1 j))) := by
          rw [getP_modifyIdx_self _ _ _ hjlen3, hgsd]
        refine ⟨⟨?_, hrest2, hrestnd, ?_, ?_, ?_⟩, ?_, ?_, ?_, ?_⟩
        · rw [modifyIdx_length, modifyIdx_length, modifyIdx_length]; exact h1
        · intro c' hc'; exact Option.noConfusion hc'
        · intro q hq
          have hqj : q = j := (Option.some.inj hq).symm
          subst hqj
          refine ⟨hjai, Or.inr ⟨?_, hjrest⟩⟩
          rw [hpsj]
          rw [hgsd] at hdec
          simpa [Process.is_finished, finishAt] using hdec
        · intro i hfi
          by_cases hij : i = j
          · subst hij
            rw [hpsj]
            simp [finishAt, decRem]
            exact selectProc_start_ne time _
          · rw [hps' i hij] at hfi ⊢
            exact h6 i hfi
        · intro p hp
          have hpj : p = j := (Option.some.inj hp).symm
          subst hpj
          exact ⟨rfl, fun hcontra => hlastne p hcontra rfl⟩
        · intro e he
          rcases List.mem_append.mp he with he | he
          · exact hA e he
          · simp only [List.mem_cons, List.not_mem_nil, or_false] at he
            rcases he with rfl | rfl <;> simp [labelOk]
        · intro pr hpr
          simp only [List.mem_singleton] at hpr
          subst hpr; rfl
        · rw [execTicks_modifyIdx_same _ _ _ (fun p => ⟨(finishAt_core _ p).2.2.1, (finishAt_core _ p).2.2.2.1⟩),
            execTicks_modifyIdx_decRem _ j hjlen2,
            execTicks_modifyIdx_same _ _ _ (fun p => ⟨(selectProc_core _ p).2.2.1, (selectProc_core _ p).2.2.2.1⟩),
            idleCount_append, hA0]
          simp [idleCount]
      · -- the dequeued process executes one unit and keeps running
        have hbody : fcfsBody time ps1 ai1 (j :: rest) none evA =
            ⟨⟨modifyIdx (modifyIdx ps1 j (selectProc time)) j decRem, ai1, rest, some j, 0⟩,
             evA ++ [Event.selected time (getP ps1 j).name (getP ps1 j).remaining],
             ⟨some j, some j, none, []⟩⟩ := by
          simp [fcfsBody, fcfsSelect, fcfsPick, execUnit, hdec]
        rw [hbody]
        refine ⟨⟨?_, hrest2, hrestnd, ?_, ?_, ?_⟩, ?_, ?_, ?_, ?_⟩
        · rw [modifyIdx_length, modifyIdx_length]; exact h1
        · intro c' hc'
          have hcj : c' = j := (Option.some.inj hc').symm
          subst hcj
          refine ⟨hjai, hjrest, ?_, rfl, ?_⟩
          · simpa using hdec
          · rw [hgsd]
            simp [decRem]
            exact selectProc_start_ne time _
        · intro q hq
          have hqj : q = j := (Option.some.inj hq).symm
          subst hqj
          exact ⟨hjai, Or.inl rfl⟩
        · intro i hfi
          by_cases hij : i = j
          · subst hij
            rw [hgsd]
            simp [decRem]
            exact selectProc_start_ne time _
          · rw [getP_modifyIdx_ne _ _ _ _ hij, getP_modifyIdx_ne _ _ _ _ hij] at hfi ⊢
            exact h6 i hfi
        · intro p hp
          have hpj : p = j := (Option.some.inj hp).symm
          subst hpj
          exact ⟨rfl, fun hcontra => hlastne p hcontra rfl⟩
        · intro e he
          rcases List.mem_append.mp he with he | he
          · exact hA e he
          · simp only [List.mem_singleton] at he
            subst he; simp [labelOk]
        · intro pr hpr; simp at hpr
        · rw [execTicks_modifyIdx_decRem _ j hjlen2,
            execTicks_modifyIdx_same _ _ _ (fun p => ⟨(selectProc_core _ p).2.2.1, (selectProc_core _ p).2.2.2.1⟩),
            idleCount_append, hA0]
          simp [idleCount]

lemma fcfsTick_pres (time : Nat) (s : SchedState) (last : Option Nat) (h : SInv s last) :
    SInv (fcfsTick time s).state (fcfsTick time s).info.exec ∧
    selOnlyOnChange last (fcfsTick time s).info ∧
    (∀ e ∈ (fcfsTick time s).evs, labelOk time e) ∧
    (∀ pr ∈ (fcfsTick time s).info.finRecs, pr.2 = time + 1) ∧
    execTicks (fcfsTick time s).state.procs + (idleCount (fcfsTick time s).evs : Int) =
      execTicks s.procs + 1 := by
  have hmid := arrival_phase_inv time s last h
  have hb := fcfsBody_pres time
    (markReady s.procs (collectArrivals s.procs time s.arrIdx).2)
    (collectArrivals s.procs time s.arrIdx).1
    (s.ready ++ (collectArrivals s.procs time s.arrIdx).2)
    s.cur
    (arrivedEvents (markReady s.procs (collectArrivals s.procs time s.arrIdx).2)
      (collectArrivals s.procs time s.arrIdx).2 time)
    last hmid (arrivedEvents_labels _ _ _) (arrivedEvents_idle _ _ _)
  have hE : execTicks (markReady s.procs (collectArrivals s.procs time s.arrIdx).2) =
      execTicks s.procs := execTicks_markReady _ _
  rw [hE] at hb
  exact hb

/-! SJF candidate-set lemmas. -/

lemma idxLt_trans (ps : List Process) :
    ∀ x y z, idxLt ps x y = true → idxLt ps y z = true → idxLt ps x z = true :=
  fun _ _ _ h1 h2 => keyLt_trans h1 h2

lemma idxLt_irrefl (ps : List Process) : ∀ x, idxLt ps x x = false :=
  fun _ => keyLt_irrefl _

lemma sjfCandidates_mem (ps : List Process) (ready : List Nat) (cur : Option Nat) (i : Nat)
    (h : i ∈ sjfCandidates ps ready cur) :
    (getP ps i).is_finished = false ∧ (i ∈ ready ∨ cur = some i) := by
  rcases List.mem_append.mp h with hm | hm
  · have := List.mem_filter.mp hm
    refine ⟨by simpa using this.2, Or.inl this.1⟩
  · cases cur with
    | none => simp at hm
    | some c =>
      have hm2 : i ∈ (if (getP ps c).is_finished = true then ([] : List Nat) else [c]) := hm
      by_cases hf : (getP ps c).is_finished = true
      · rw [if_pos hf] at hm2; simp at hm2
      · have hf2 : (getP ps c).is_finished = false := by
          cases hfc : (getP ps c).is_finished
          · rfl
          · exact absurd hfc hf
        rw [if_neg hf] at hm2
        simp only [List.mem_singleton] at hm2
        subst hm2
        exact ⟨hf2, Or.inr rfl⟩

lemma sjfCandidates_mem_ready (ps : List Process) (ready : List Nat) (cur : Option Nat) (i : Nat)
    (hi : i ∈ ready) (hf : (getP ps i).is_finished = false) :
    i ∈ sjfCandidates ps ready cur := by
  apply List.mem_append.mpr
  exact Or.inl (List.mem_filter.mpr ⟨hi, by simp [hf]⟩)

lemma sjfCandidates_mem_cur (ps : List Process) (ready : List Nat) (c : Nat)
    (hf : (getP ps c).is_finished = false) :
    c ∈ sjfCandidates ps ready (some c) := by
  apply List.mem_append.mpr
  refine Or.inr ?_
  show c ∈ (if (getP ps c).is_finished = true then ([] : List Nat) else [c])
  rw [if_neg (by rw [hf]; exact Bool.false_ne_true)]
  exact List.mem_singleton.mpr rfl

/-! SJF tick preservation. -/

lemma sjfBody_pres (time : Nat) (ps1 : List Process) (ai1 : Nat) (ready1 : List Nat)
    (cur : Option Nat) (evA : List Event) (last : Option Nat)
    (hmi : MidInv ps1 ai1 ready1 cur last)
    (hA : ∀ e ∈ evA, labelOk time e) (hA0 : idleCount evA = 0) :
    MidInv (sjfBody time ps1 ai1 ready1 cur evA).state.procs
      (sjfBody time ps1 ai1 ready1 cur evA).state.arrIdx
      (sjfBody time ps1 ai1 ready1 cur evA).state.ready
      (sjfBody time ps1 ai1 ready1 cur evA).state.cur
      (sjfBody time ps1 ai1 ready1 cur evA).info.exec ∧
    selOnlyOnChange last (sjfBody time ps1 ai1 ready1 cur evA).info ∧
    (∀ e ∈ (sjfBody time ps1 ai1 ready1 cur evA).evs, labelOk time e) ∧
    (∀ pr ∈ (sjfBody time ps1 ai1 ready1 cur evA).info.finRecs, pr.2 = time + 1) ∧
    execTicks (sjfBody time ps1 ai1 ready1 cur evA).state.procs +
      (idleCount (sjfBody time ps1 ai1 ready1 cur evA).evs : Int) = execTicks ps1 + 1 := by
  obtain ⟨h1, h2, h3, h4, h5, h6⟩ := hmi
  cases hc : sjfCandidates ps1 ready1 cur with
  | nil =>
    have hcurn : cur = none := by
      cases cur with
      | none => rfl
      | some c =>
        have hfin := (h4 c rfl).2.2.1
        have hmem := sjfCandidates_mem_cur ps1 ready1 c hfin
        rw [hc] at hmem
        simp at hmem
    subst hcurn
    have hbody : sjfBody time ps1 ai1 ready1 none evA =
        ⟨⟨ps1, ai1, ready1, none, 0⟩, evA ++ [Event.idle time], ⟨none, none, none, []⟩⟩ := by
      simp [sjfBody, hc]
    rw [hbody]
    refine ⟨⟨h1, h2, h3, ?_, ?_, h6⟩, ?_, ?_, ?_, ?_⟩
    · intro c' hc'; exact Option.noConfusion hc'
    · intro q hq
      exact Option.noConfusion hq
    · intro p hp; exact Option.noConfusion hp
    · intro e he
      rcases List.mem_append.mp he with he | he
      · exact hA e he
      · simp only [List.mem_singleton] at he
        subst he; simp [labelOk]
    · intro pr hpr; simp at hpr
    · rw [idleCount_append, hA0]
      simp [idleCount]
  | cons c0 cs =>
    obtain ⟨ch, hchdef⟩ : ∃ ch, pyMin (idxLt ps1) c0 cs = ch := ⟨_, rfl⟩
    have hch_mem : ch ∈ sjfCandidates ps1 ready1 cur := by
      rw [hc, ← hchdef]
      rcases pyMin_mem (idxLt ps1) c0 cs with h | h
      · rw [h]; exact List.mem_cons_self _ _
      · exact List.mem_cons_of_mem _ h
    have hch := sjfCandidates_mem ps1 ready1 cur ch hch_mem
    have hch_fin : (getP ps1 ch).is_finished = false := hch.1
    by_cases hEq : some ch = cur
    · -- the minimal candidate is the running process: silent continuation
      subst hEq
      have h4c := h4 ch rfl
      have hclen : ch < ps1.length := lt_of_lt_of_le h4c.1 h1
      have hclen2 : ch < (modifyIdx ps1 ch decRem).length := by
        rw [modifyIdx_length]; exact hclen
      have hgd : getP (modifyIdx ps1 ch decRem) ch = decRem (getP ps1 ch) :=
        getP_modifyIdx_self ps1 ch decRem hclen
      by_cases hdec : (getP (modifyIdx ps1 ch decRem) ch).is_finished = true
      · have hbody : sjfBody time ps1 ai1 ready1 (some ch) evA =
            ⟨⟨modifyIdx (modifyIdx ps1 ch decRem) ch (finishAt (time+1)), ai1, ready1, none, 0⟩,
             evA ++ [Event.finished (time+1) (getP (modifyIdx ps1 ch decRem) ch).name],
             ⟨some ch, none, none, [(ch, time+1)]⟩⟩ := by
          simp [sjfBody, hc, hchdef, execUnit, hdec]
        rw [hbody]
        have hps' : ∀ j, j ≠ ch →
            getP (modifyIdx (modifyIdx ps1 ch decRem) ch (finishAt (time+1))) j = getP ps1 j := by
          intro j hj
          rw [getP_modifyIdx_ne _ _ _ _ hj, getP_modifyIdx_ne _ _ _ _ hj]
        have hpsc : getP (modifyIdx (modifyIdx ps1 ch decRem) ch (finishAt (time+1))) ch =
            finishAt (time+1) (decRem (getP ps1 ch)) := by
          rw [getP_modifyIdx_self _ _ _ hclen2, hgd]
        refine ⟨⟨?_, h2, h3, ?_, ?_, ?_⟩, ?_, ?_, ?_, ?_⟩
        · rw [modifyIdx_length, modifyIdx_length]; exact h1
        · intro c' hc'; exact Option.noConfusion hc'
        · intro q hq
          have hqc : q = ch := (Option.some.inj hq).symm
          subst hqc
          refine ⟨h4c.1, Or.inr ⟨?_, h4c.2.1⟩⟩
          rw [hpsc]
          rw [hgd] at hdec
          simpa [Process.is_finished, finishAt] using hdec
        · intro j hfj
          by_cases hjc : j = ch
          · subst hjc
            rw [hpsc] at hfj ⊢
            simpa [finishAt, decRem] using h4c.2.2.2.2
          · rw [hps' j hjc] at hfj ⊢
            exact h6 j hfj
        · intro p hp; exact Option.noConfusion hp
        · intro e he
          rcases List.mem_append.mp he with he | he
          · exact hA e he
          · simp only [List.mem_singleton] at he
            subst he; simp [labelOk]
        · intro pr hpr
          simp only [List.mem_singleton] at hpr
          subst hpr; rfl
        · rw [execTicks_modifyIdx_same _ _ _ (fun p => ⟨(finishAt_core _ p).2.2.1, (finishAt_core _ p).2.2.2.1⟩),
            execTicks_modifyIdx_decRem ps1 ch hclen, idleCount_append, hA0]
          simp [idleCount]
      · have hbody : sjfBody time ps1 ai1 ready1 (some ch) evA =
            ⟨⟨modifyIdx ps1 ch decRem, ai1, ready1, some ch, 0⟩, evA,
             ⟨some ch, none, none, []⟩⟩ := by
          simp [sjfBody, hc, hchdef, execUnit, hdec]
        rw [hbody]
        refine ⟨⟨?_, h2, h3, ?_, ?_, ?_⟩, ?_, ?_, ?_, ?_⟩
        · rw [modifyIdx_length]; exact h1
        · intro c' hc'
          have hcc : c' = ch := (Option.some.inj hc').symm
          subst hcc
          refine ⟨h4c.1, h4c.2.1, ?_, rfl, ?_⟩
          · simpa using hdec
          · rw [hgd]
            simpa [decRem] using h4c.2.2.2.2
        · intro q hq
          have hqc : q = ch := (Option.some.inj hq).symm
          subst hqc
          exact ⟨h4c.1, Or.inl rfl⟩
        · intro j hfj
          by_cases hjc : j = ch
          · subst hjc
            rw [hgd] at hfj ⊢
            simp only [decRem] at hfj ⊢
            exact h6 _ hfj
          · rw [getP_modifyIdx_ne _ _ _ _ hjc] at hfj ⊢
            exact h6 j hfj
        · intro p hp; exact Option.noConfusion hp
        · intro e he; exact hA e he
        · intro pr hpr; simp at hpr
        · rw [execTicks_modifyIdx_decRem ps1 ch hclen, hA0]
          simp
    · -- preemption/switch: the chosen process differs from the running one
      have hch_ready : ch ∈ ready1 := by
        rcases hch.2 with h | h
        · exact h
        · exact absurd h.symm hEq
      have hchai : ch < ai1 := h2 ch hch_ready
      have hchlen : ch < ps1.length := lt_of_lt_of_le hchai h1
      have hlastne : last ≠ some ch := by
        intro hlast
        have h5c := h5 ch hlast
        rcases h5c.2 with hl | hr
        · exact hEq hl.symm
        · rw [hch_fin] at hr
          exact Bool.noConfusion hr.1
      cases cur with
      | none =>
        have hbody0 : sjfPreempt ps1 ready1 none = (ps1, ready1) := rfl
        have hchlen2 : ch < (modifyIdx ps1 ch (selectProc time)).length := by
          rw [modifyIdx_length]; exact hchlen
        have hgsd : getP (modifyIdx (modifyIdx ps1 ch (selectProc time)) ch decRem) ch =
            decRem (selectProc time (getP ps1 ch)) := by
          rw [getP_modifyIdx_self _ _ _ hchlen2, getP_modifyIdx_self _ _ _ hchlen]
        have hr2sub : ∀ i, i ∈ ready1.erase ch → i ∈ ready1 := fun i hi => List.mem_of_mem_erase hi
        have hr2nd : (ready1.erase ch).Nodup := h3.erase ch
        have hchnr2 : ch ∉ ready1.erase ch := fun hmem => ((h3.mem_erase_iff).mp hmem).1 rfl
        by_cases hdec : (getP (modifyIdx (modifyIdx ps1 ch (selectProc time)) ch decRem) ch).is_finished = true
        · have hbody : sjfBody time ps1 ai1 ready1 none evA =
              ⟨⟨modifyIdx (modifyIdx (modifyIdx ps1 ch (selectProc time)) ch decRem) ch (finishAt (time+1)),
                ai1, ready1.erase ch, none, 0⟩,
               evA ++ [Event.selected time (getP ps1 ch).name (getP ps1 ch).remaining,
                 Event.finished (time+1) (getP (modifyIdx (modifyIdx ps1 ch (selectProc time)) ch decRem) ch).name],
               ⟨some ch, some ch, none, [(ch, time+1)]⟩⟩ := by
            simp [sjfBody, hc, hchdef, hEq, sjfPreempt, execUnit, hdec]
          rw [hbody]
          have hps' : ∀ i, i ≠ ch →
              getP (modifyIdx (modifyIdx (modifyIdx ps1 ch (selectProc time)) ch decRem) ch (finishAt (time+1))) i
                = getP ps1 i := by
            intro i hi
            rw [getP_modifyIdx_ne _ _ _ _ hi, getP_modifyIdx_ne _ _ _ _ hi, getP_modifyIdx_ne _ _ _ _ hi]
          have hpsc : getP (modifyIdx (modifyIdx (modifyIdx ps1 ch (selectProc time)) ch decRem) ch (finishAt (time+1))) ch
              = finishAt (time+1) (decRem (selectProc time (getP ps1 ch))) := by
            rw [getP_modifyIdx_self, hgsd]
            rw [modifyIdx_length, modifyIdx_length]
            exact hchlen
          refine ⟨⟨?_, ?_, hr2nd, ?_, ?_, ?_⟩, ?_, ?_, ?_, ?_⟩
          · rw [modifyIdx_length, modifyIdx_length, modifyIdx_length]; exact h1
          · intro i hi; exact h2 i (hr2sub i hi)
          · intro c' hc'; exact Option.noConfusion hc'
          · intro q hq
            have hqc : q = ch := (Option.some.inj hq).symm
            subst hqc
            refine ⟨hchai, Or.inr ⟨?_, hchnr2⟩⟩
            rw [hpsc]
            rw [hgsd] at hdec
            simpa [Process.is_finished, finishAt] using hdec
          · intro i hfi
            by_cases hij : i = ch
            · subst hij
              rw [hpsc]
              simp only [finishAt, decRem]
              exact selectProc_start_ne time _
            · rw [hps' i hij] at hfi ⊢
              exact h6 i hfi
          · intro p hp
            have hpc : p = ch := (Option.some.inj hp).symm
            subst hpc
            exact ⟨rfl, fun hcon => hlastne hcon⟩
          · intro e he
            rcases List.mem_append.mp he with he | he
            · exact hA e he
            · simp only [List.mem_cons, List.not_mem_nil, or_false] at he
              rcases he with rfl | rfl <;> simp [labelOk]
          · intro pr hpr
            simp only [List.mem_singleton] at hpr
            subst hpr; rfl
          · rw [execTicks_modifyIdx_same _ _ _ (fun p => ⟨(finishAt_core _ p).2.2.1, (finishAt_core _ p).2.2.2.1⟩),
              execTicks_modifyIdx_decRem _ ch hchlen2,
              execTicks_modifyIdx_same _ _ _ (fun p => ⟨(selectProc_core _ p).2.2.1, (selectProc_core _ p).2.2.2.1⟩),
              idleCount_append, hA0]
            simp [idleCount]
        · have hbody : sjfBody time ps1 ai1 ready1 none evA =
              ⟨⟨modifyIdx (modifyIdx ps1 ch (selectProc time)) ch decRem, ai1, ready1.erase ch, some ch, 0⟩,
               evA ++ [Event.selected time (getP ps1 ch).name (getP ps1 ch).remaining],
               ⟨some ch, some ch, none, []⟩⟩ := by
            simp [sjfBody, hc, hchdef, hEq, sjfPreempt, execUnit, hdec]
          rw [hbody]
          refine ⟨⟨?_, ?_, hr2nd, ?_, ?_, ?_⟩, ?_, ?_, ?_, ?_⟩
          · rw [modifyIdx_length, modifyIdx_length]; exact h1
          · intro i hi; exact h2 i (hr2sub i hi)
          · intro c' hc'
            have hcc : c' = ch := (Option.some.inj hc').symm
            subst hcc
            refine ⟨hchai, hchnr2, ?_, rfl, ?_⟩
            · simpa using hdec
            · rw [hgsd]
              simp only [decRem]
              exact selectProc_start_ne time _
          · intro q hq
            have hqc : q = ch := (Option.some.inj hq).symm
            subst hqc
            exact ⟨hchai, Or.inl rfl⟩
          · intro i hfi
            by_cases hij : i = ch
            · subst hij
              rw [hgsd]
              simp only [decRem]
              exact selectProc_start_ne time _
            · rw [getP_modifyIdx_ne _ _ _ _ hij, getP_modifyIdx_ne _ _ _ _ hij] at hfi ⊢
              exact h6 i hfi
          · intro p hp
            have hpc : p = ch := (Option.some.inj hp).symm
            subst hpc
            exact ⟨rfl, fun hcon => hlastne hcon⟩
          · intro e he
            rcases List.mem_append.mp he with he | he
            · exact hA e he
            · simp only [List.mem_singleton] at he
              subst he; simp [labelOk]
          · intro pr hpr; simp at hpr
          · rw [execTicks_modifyIdx_decRem _ ch hchlen2,
              execTicks_modifyIdx_same _ _ _ (fun p => ⟨(selectProc_core _ p).2.2.1, (selectProc_core _ p).2.2.2.1⟩),
              idleCount_append, hA0]
            simp [idleCount]
      | some c =>
        have h4c := h4 c rfl
        have hfinc : (getP ps1 c).is_finished = false := h4c.2.2.1
        have hcnr : c ∉ ready1 := h4c.2.1
        have hchne : ch ≠ c := fun hcon => hEq (by rw [hcon])
        have hclen : c < ps1.length := lt_of_lt_of_le h4c.1 h1
        have hgsr : ∀ j, j ≠ c → getP (modifyIdx ps1 c setReadyState) j = getP ps1 j :=
          fun j hj => getP_modifyIdx_ne _ _ _ _ hj
        have hgsrc : getP (modifyIdx ps1 c setReadyState) c = setReadyState (getP ps1 c) :=
          getP_modifyIdx_self _ _ _ hclen
        have hchlen2 : ch < (modifyIdx ps1 c setReadyState).length := by
          rw [modifyIdx_length]; exact hchlen
        have hchlen3 : ch < (modifyIdx (modifyIdx ps1 c setReadyState) ch (selectProc time)).length := by
          rw [modifyIdx_length]; exact hchlen2
        have hgsd : getP (modifyIdx (modifyIdx (modifyIdx ps1 c setReadyState) ch (selectProc time)) ch decRem) ch =
            decRem (selectProc time (getP ps1 ch)) := by
          rw [getP_modifyIdx_self _ _ _ hchlen3, getP_modifyIdx_self _ _ _ hchlen2, hgsr ch hchne]
        have hndapp : (ready1 ++ [c]).Nodup := by
          rw [List.nodup_append]
          exact ⟨h3, List.nodup_singleton c, by
            intro x hx hxc
            simp only [List.mem_singleton] at hxc
            subst hxc
            exact hcnr hx⟩
        have hr2sub : ∀ i, i ∈ (ready1 ++ [c]).erase ch → i ∈ ready1 ++ [c] :=
          fun i hi => List.mem_of_mem_erase hi
        have hr2nd : ((ready1 ++ [c]).erase ch).Nodup := hndapp.erase ch
        have hchnr2 : ch ∉ (ready1 ++ [c]).erase ch := fun hmem => ((hndapp.mem_erase_iff).mp hmem).1 rfl
        have hbnd : ∀ i, i ∈ (ready1 ++ [c]).erase ch → i < ai1 := by
          intro i hi
          rcases List.mem_append.mp (hr2sub i hi) with hm | hm
          · exact h2 i hm
          · simp only [List.mem_singleton] at hm
            subst hm
            exact h4c.1
        by_cases hdec : (getP (modifyIdx (modifyIdx (modifyIdx ps1 c setReadyState) ch (selectProc time)) ch decRem) ch).is_finished = true
        · have hbody : sjfBody time ps1 ai1 ready1 (some c) evA =
              ⟨⟨modifyIdx (modifyIdx (modifyIdx (modifyIdx ps1 c setReadyState) ch (selectProc time)) ch decRem) ch (finishAt (time+1)),
                ai1, (ready1 ++ [c]).erase ch, none, 0⟩,
               evA ++ [Event.selected time (getP (modifyIdx ps1 c setReadyState) ch).name (getP (modifyIdx ps1 c setReadyState) ch).remaining,
                 Event.finished (time+1) (getP (modifyIdx (modifyIdx (modifyIdx ps1 c setReadyState) ch (selectProc time)) ch decRem) ch).name],
               ⟨some ch, some ch, none, [(ch, time+1)]⟩⟩ := by
            simp [sjfBody, hc, hchdef, hEq, sjfPreempt, hfinc, hcnr, execUnit, hdec]
          rw [hbody]
          have hps' : ∀ i, i ≠ ch → i ≠ c →
              getP (modifyIdx (modifyIdx (modifyIdx (modifyIdx ps1 c setReadyState) ch (selectProc time)) ch decRem) ch (finishAt (time+1))) i
                = getP ps1 i := by
            intro i hi hic
            rw [getP_modifyIdx_ne _ _ _ _ hi, getP_modifyIdx_ne _ _ _ _ hi,
              getP_modifyIdx_ne _ _ _ _ hi, hgsr i hic]
          have hpsC : getP (modifyIdx (modifyIdx (modifyIdx (modifyIdx ps1 c setReadyState) ch (selectProc time)) ch decRem) ch (finishAt (time+1))) c
              = setReadyState (getP ps1 c) := by
            rw [getP_modifyIdx_ne _ _ _ _ (Ne.symm hchne), getP_modifyIdx_ne _ _ _ _ (Ne.symm hchne),
              getP_modifyIdx_ne _ _ _ _ (Ne.symm hchne), hgsrc]
          have hpsc : getP (modifyIdx (modifyIdx (modifyIdx (modifyIdx ps1 c setReadyState) ch (selectProc time)) ch decRem) ch (finishAt (time+1))) ch
              = finishAt (time+1) (decRem (selectProc time (getP ps1 ch))) := by
            rw [getP_modifyIdx_self, hgsd]
            rw [modifyIdx_length, modifyIdx_length, modifyIdx_length]
            exact hchlen
          refine ⟨⟨?_, hbnd, hr2nd, ?_, ?_, ?_⟩, ?_, ?_, ?_, ?_⟩
          · rw [modifyIdx_length, modifyIdx_length, modifyIdx_length, modifyIdx_length]; exact h1
          · intro c' hc'; exact Option.noConfusion hc'
          · intro q hq
            have hqc : q = ch := (Option.some.inj hq).symm
            subst hqc
            refine ⟨hchai, Or.inr ⟨?_, hchnr2⟩⟩
            rw [hpsc]
            rw [hgsd] at hdec
            simpa [Process.is_finished, finishAt] using hdec
          · intro i hfi
            by_cases hic : i = ch
            · subst hic
              rw [hpsc]
              simp only [finishAt, decRem]
              exact selectProc_start_ne time _
            · by_cases hicc : i = c
              · subst hicc
                rw [hpsC] at hfi ⊢
                simp only [setReadyState] at hfi ⊢
                exact h6 _ hfi
              · rw [hps' i hic hicc] at hfi ⊢
                exact h6 i hfi
          · intro p hp
            have hpc : p = ch := (Option.some.inj hp).symm
            subst hpc
            exact ⟨rfl, fun hcon => hlastne hcon⟩
          · intro e he
            rcases List.mem_append.mp he with he | he
            · exact hA e he
            · simp only [List.mem_cons, List.not_mem_nil, or_false] at he
              rcases he with rfl | rfl <;> simp [labelOk]
          · intro pr hpr
            simp only [List.mem_singleton] at hpr
            subst hpr; rfl
          · rw [execTicks_modifyIdx_same _ _ _ (fun p => ⟨(finishAt_core _ p).2.2.1, (finishAt_core _ p).2.2.2.1⟩),
              execTicks_modifyIdx_decRem _ ch hchlen3,
              execTicks_modifyIdx_same _ _ _ (fun p => ⟨(selectProc_core _ p).2.2.1, (selectProc_core _ p).2.2.2.1⟩),
              execTicks_modifyIdx_same _ _ setReadyState (fun p => ⟨rfl, rfl⟩),
              idleCount_append, hA0]
            simp [idleCount]
        · have hbody : sjfBody time ps1 ai1 ready1 (some c) evA =
              ⟨⟨modifyIdx (modifyIdx (modifyIdx ps1 c setReadyState) ch (selectProc time)) ch decRem,
                ai1, (ready1 ++ [c]).erase ch, some ch, 0⟩,
               evA ++ [Event.selected time (getP (modifyIdx ps1 c setReadyState) ch).name (getP (modifyIdx ps1 c setReadyState) ch).remaining],
               ⟨some ch, some ch, none, []⟩⟩ := by
            simp [sjfBody, hc, hchdef, hEq, sjfPreempt, hfinc, hcnr, execUnit, hdec]
          rw [hbody]
          have hpsC : getP (modifyIdx (modifyIdx (modifyIdx ps1 c setReadyState) ch (selectProc time)) ch decRem) c
              = setReadyState (getP ps1 c) := by
            rw [getP_modifyIdx_ne _ _ _ _ (Ne.symm hchne), getP_modifyIdx_ne _ _ _ _ (Ne.symm hchne), hgsrc]
          refine ⟨⟨?_, hbnd, hr2nd, ?_, ?_, ?_⟩, ?_, ?_, ?_, ?_⟩
          · rw [modifyIdx_length, modifyIdx_length, modifyIdx_length]; exact h1
          · intro c' hc'
            have hcc : c' = ch := (Option.some.inj hc').symm
            subst hcc
            refine ⟨hchai, hchnr2, ?_, rfl, ?_⟩
            · simpa using hdec
            · rw [hgsd]
              simp only [decRem]
              exact selectProc_start_ne time _
          · intro q hq
            have hqc : q = ch := (Option.some.inj hq).symm
            subst hqc
            exact ⟨hchai, Or.inl rfl⟩
          · intro i hfi
            by_cases hic : i = ch
            · subst hic
              rw [hgsd]
              simp only [decRem]
              exact selectProc_start_ne time _
            · by_cases hicc : i = c
              · subst hicc
                rw [hpsC] at hfi ⊢
                simp only [setReadyState] at hfi ⊢
                exact h6 _ hfi
              · rw [getP_modifyIdx_ne _ _ _ _ hic, getP_modifyIdx_ne _ _ _ _ hic, hgsr i hicc] at hfi ⊢
                exact h6 i hfi
          · intro p hp
            have hpc : p = ch := (Option.some.inj hp).symm
            subst hpc
            exact ⟨rfl, fun hcon => hlastne hcon⟩
          · intro e he
            rcases List.mem_append.mp he with he | he
            · exact hA e he
            · simp only [List.mem_singleton] at he
              subst he; simp [labelOk]
          · intro pr hpr; simp at hpr
          · rw [execTicks_modifyIdx_decRem _ ch hchlen3,
              execTicks_modifyIdx_same _ _ _ (fun p => ⟨(selectProc_core _ p).2.2.1, (selectProc_core _ p).2.2.2.1⟩),
              execTicks_modifyIdx_same _ _ setReadyState (fun p => ⟨rfl, rfl⟩),
              idleCount_append, hA0]
            simp [idleCount]

lemma sjfTick_pres (time : Nat) (s : SchedState) (last : Option Nat) (h : SInv s last) :
    SInv (sjfTick time s).state (sjfTick time s).info.exec ∧
    selOnlyOnChange last (sjfTick time s).info ∧
    (∀ e ∈ (sjfTick time s).evs, labelOk time e) ∧
    (∀ pr ∈ (sjfTick time s).info.finRecs, pr.2 = time + 1) ∧
    execTicks (sjfTick time s).state.procs + (idleCount (sjfTick time s).evs : Int) =
      execTicks s.procs + 1 := by
  have hmid := arrival_phase_inv time s last h
  have hb := sjfBody_pres time
    (markReady s.procs (collectArrivals s.procs time s.arrIdx).2)
    (collectArrivals s.procs time s.arrIdx).1
    (s.ready ++ (collectArrivals s.procs time s.arrIdx).2)
    s.cur
    (arrivedEvents (markReady s.procs (collectArrivals s.procs time s.arrIdx).2)
      (collectArrivals s.procs time s.arrIdx).2 time)
    last hmid (arrivedEvents_labels _ _ _) (arrivedEvents_idle _ _ _)
  have hE : execTicks (markReady s.procs (collectArrivals s.procs time s.arrIdx).2) =
      execTicks s.procs := execTicks_markReady _ _
  rw [hE] at hb
  exact hb

/-! Round-robin tick preservation. -/

lemma rrBody_pres (quantum : Int) (time : Nat) (ps1 : List Process) (ai1 : Nat)
    (ready1 : List Nat) (cur : Option Nat) (cq : Nat) (evA : List Event) (last : Option Nat)
    (hmi : MidInv ps1 ai1 ready1 cur last)
    (hA : ∀ e ∈ evA, labelOk time e) (hA0 : idleCount evA = 0) :
    MidInv (rrBody quantum time ps1 ai1 ready1 cur cq evA).state.procs
      (rrBody quantum time ps1 ai1 ready1 cur cq evA).state.arrIdx
      (rrBody quantum time ps1 ai1 ready1 cur cq evA).state.ready
      (rrBody quantum time ps1 ai1 ready1 cur cq evA).state.cur
      (rrBody quantum time ps1 ai1 ready1 cur cq evA).info.exec ∧
    selOnlyOnChangeRR last (rrBody quantum time ps1 ai1 ready1 cur cq evA).info ∧
    (∀ e ∈ (rrBody quantum time ps1 ai1 ready1 cur cq evA).evs, labelOk time e) ∧
    (∀ pr ∈ (rrBody quantum time ps1 ai1 ready1 cur cq evA).info.finRecs, pr.2 = time + 1) ∧
    execTicks (rrBody quantum time ps1 ai1 ready1 cur cq evA).state.procs +
      (idleCount (rrBody quantum time ps1 ai1 ready1 cur cq evA).evs : Int) =
      execTicks ps1 + 1 := by
  obtain ⟨h1, h2, h3, h4, h5, h6⟩ := hmi
  cases cur with
  | none =>
    cases hr : ready1 with
    | nil =>
      have hbody : rrBody quantum time ps1 ai1 [] none cq evA =
          ⟨⟨ps1, ai1, [], none, cq⟩, evA ++ [Event.idle time], ⟨none, none, none, []⟩⟩ := by
        simp [rrBody, rrNeeds, rrFinishStep, rrPreemptStep, rrPickStep]
      rw [hr] at h2 h3
      rw [hbody]
      refine ⟨⟨h1, h2, h3, ?_, ?_, h6⟩, ?_, ?_, ?_, ?_⟩
      · intro c' hc'; exact Option.noConfusion hc'
      · intro q hq; exact Option.noConfusion hq
      · intro p hp; exact Option.noConfusion hp
      · intro e he
        rcases List.mem_append.mp he with he | he
        · exact hA e he
        · simp only [List.mem_singleton] at he
          subst he; simp [labelOk]
      · intro pr hpr; simp at hpr
      · rw [idleCount_append, hA0]
        simp [idleCount]
    | cons j rest =>
      have hjr : j ∈ ready1 := by rw [hr]; exact List.mem_cons_self _ _
      have hjai : j < ai1 := h2 j hjr
      have hjlen : j < ps1.length := lt_of_lt_of_le hjai h1
      have hjlen2 : j < (modifyIdx ps1 j (selectProc time)).length := by
        rw [modifyIdx_length]; exact hjlen
      have hjrest : j ∉ rest := by
        rw [hr] at h3
        exact (List.nodup_cons.mp h3).1
      have hrest2 : ∀ i ∈ rest, i < ai1 :=
        fun i hi => h2 i (by rw [hr]; exact List.mem_cons_of_mem _ hi)
      have hrestnd : rest.Nodup := by
        rw [hr] at h3
        exact (List.nodup_cons.mp h3).2
      have hgsd : getP (modifyIdx (modifyIdx ps1 j (selectProc time)) j decRem) j =
          decRem (selectProc time (getP ps1 j)) := by
        rw [getP_modifyIdx_self _ _ _ hjlen2, getP_modifyIdx_self _ _ _ hjlen]
      have hlastne : ∀ p, last = some p → p ≠ j := by
        intro p hp hpj
        subst hpj
        have h5p := h5 p hp
        rcases h5p.2 with hl | hr2
        · exact Option.noConfusion hl
        · exact hr2.2 hjr
      by_cases hdec : (getP (modifyIdx (modifyIdx ps1 j (selectProc time)) j decRem) j).is_finished = true
      · have hbody : rrBody quantum time ps1 ai1 (j :: rest) none cq evA =
            ⟨⟨modifyIdx (modifyIdx (modifyIdx ps1 j (selectProc time)) j decRem) j (finishAt (time+1)),
              ai1, rest, none, 0⟩,
             evA ++ [Event.selected time (getP ps1 j).name (getP ps1 j).remaining,
               Event.finished (time+1) (getP (modifyIdx (modifyIdx ps1 j (selectProc time)) j decRem) j).name],
             ⟨some j, some j, none, [(j, time+1)]⟩⟩ := by
          simp [rrBody, rrNeeds, rrFinishStep, rrPreemptStep, rrPickStep, execUnit, hdec]
        rw [hbody]
        have hps' : ∀ i, i ≠ j →
            getP (modifyIdx (modifyIdx (modifyIdx ps1 j (selectProc time)) j decRem) j (finishAt (time+1))) i
              = getP ps1 i := by
          intro i hi
          rw [getP_modifyIdx_ne _ _ _ _ hi, getP_modifyIdx_ne _ _ _ _ hi, getP_modifyIdx_ne _ _ _ _ hi]
        have hpsj : getP (modifyIdx (modifyIdx (modifyIdx ps1 j (selectProc time)) j decRem) j (finishAt (time+1))) j
            = finishAt (time+1) (decRem (selectProc time (getP ps1 j))) := by
          rw [getP_modifyIdx_self, hgsd]
          rw [modifyIdx_length, modifyIdx_length]
          exact hjlen
        refine ⟨⟨?_, hrest2, hrestnd, ?_, ?_, ?_⟩, ?_, ?_, ?_, ?_⟩
        · rw [modifyIdx_length, modifyIdx_length, modifyIdx_length]; exact h1
        · intro c' hc'; exact Option.noConfusion hc'
        · intro q hq
          have hqj : q = j := (Option.some.inj hq).symm
          subst hqj
          refine ⟨hjai, Or.inr ⟨?_, hjrest⟩⟩
          rw [hpsj]
          rw [hgsd] at hdec
          simpa [Process.is_finished, finishAt] using hdec
        · intro i hfi
          by_cases hij : i = j
          · subst hij
            rw [hpsj]
            simp only [finishAt, decRem]
            exact selectProc_start_ne time _
          · rw [hps' i hij] at hfi ⊢
            exact h6 i hfi
        · intro p hp
          have hpj : p = j := (Option.some.inj hp).symm
          subst hpj
          exact ⟨rfl, Or.inl (fun hcontra => hlastne p hcontra rfl)⟩
        · intro e he
          rcases List.mem_append.mp he with he | he
          · exact hA e he
          · simp only [List.mem_cons, List.not_mem_nil, or_false] at he
            rcases he with rfl | rfl <;> simp [labelOk]
        · intro pr hpr
          simp only [List.mem_singleton] at hpr
          subst hpr; rfl
        · rw [execTicks_modifyIdx_same _ _ _ (fun p => ⟨(finishAt_core _ p).2.2.1, (finishAt_core _ p).2.2.2.1⟩),
            execTicks_modifyIdx_decRem _ j hjlen2,
            execTicks_modifyIdx_same _ _ _ (fun p => ⟨(selectProc_core _ p).2.2.1, (selectProc_core _ p).2.2.2.1⟩),
            idleCount_append, hA0]
          simp [idleCount]
      · have hbody : rrBody quantum time ps1 ai1 (j :: rest) none cq evA =
            ⟨⟨modifyIdx (modifyIdx ps1 j (selectProc time)) j decRem, ai1, rest, some j, 1⟩,
             evA ++ [Event.selected time (getP ps1 j).name (getP ps1 j).remaining],
             ⟨some j, some j, none, []⟩⟩ := by
          simp [rrBody, rrNeeds, rrFinishStep, rrPreemptStep, rrPickStep, execUnit, hdec]
        rw [hbody]
        refine ⟨⟨?_, hrest2, hrestnd, ?_, ?_, ?_⟩, ?_, ?_, ?_, ?_⟩
        · rw [modifyIdx_length, modifyIdx_length]; exact h1
        · intro c' hc'
          have hcj : c' = j := (Option.some.inj hc').symm
          subst hcj
          refine ⟨hjai, hjrest, ?_, rfl, ?_⟩
          · simpa using hdec
          · rw [hgsd]
            simp only [decRem]
            exact selectProc_start_ne time _
        · intro q hq
          have hqj : q = j := (Option.some.inj hq).symm
          subst hqj
          exact ⟨hjai, Or.inl rfl⟩
        · intro i hfi
          by_cases hij : i = j
          · subst hij
            rw [hgsd]
            simp only [decRem]
            exact selectProc_start_ne time _
          · rw [getP_modifyIdx_ne _ _ _ _ hij, getP_modifyIdx_ne _ _ _ _ hij] at hfi ⊢
            exact h6 i hfi
        · intro p hp
          have hpj : p = j := (Option.some.inj hp).symm
          subst hpj
          exact ⟨rfl, Or.inl (fun hcontra => hlastne p hcontra rfl)⟩
        · intro e he
          rcases List.mem_append.mp he with he | he
          · exact hA e he
          · simp only [List.mem_singleton] at he
            subst he; simp [labelOk]
        · intro pr hpr; simp at hpr
        · rw [execTicks_modifyIdx_decRem _ j hjlen2,
            execTicks_modifyIdx_same _ _ _ (fun p => ⟨(selectProc_core _ p).2.2.1, (selectProc_core _ p).2.2.2.1⟩),
            idleCount_append, hA0]
          simp [idleCount]
  | some c =>
    have h4c := h4 c rfl
    have hfinc : (getP ps1 c).is_finished = false := h4c.2.2.1
    have hclen : c < ps1.length := lt_of_lt_of_le h4c.1 h1
    have hcnr : c ∉ ready1 := h4c.2.1
    by_cases hq : quantum ≤ (cq : Int)
    · -- quantum expired: preempt, requeue at the tail, dequeue the head
      cases hr : ready1 with
      | nil =>
        -- the requeued process is immediately re-selected
        have hclen2 : c < (modifyIdx ps1 c setReadyState).length := by
          rw [modifyIdx_length]; exact hclen
        have hclen3 : c < (modifyIdx (modifyIdx ps1 c setReadyState) c (selectProc time)).length := by
          rw [modifyIdx_length]; exact hclen2
        have hgsd : getP (modifyIdx (modifyIdx (modifyIdx ps1 c setReadyState) c (selectProc time)) c decRem) c =
            decRem (selectProc time (setReadyState (getP ps1 c))) := by
          rw [getP_modifyIdx_self _ _ _ hclen3, getP_modifyIdx_self _ _ _ hclen2,
            getP_modifyIdx_self _ _ _ hclen]
        by_cases hdec : (getP (modifyIdx (modifyIdx (modifyIdx ps1 c setReadyState) c (selectProc time)) c decRem) c).is_finished = true
        · have hbody : rrBody quantum time ps1 ai1 [] (some c) cq evA =
              ⟨⟨modifyIdx (modifyIdx (modifyIdx (modifyIdx ps1 c setReadyState) c (selectProc time)) c decRem) c (finishAt (time+1)),
                ai1, [], none, 0⟩,
               evA ++ [Event.selected time (getP (modifyIdx ps1 c setReadyState) c).name (getP (modifyIdx ps1 c setReadyState) c).remaining,
                 Event.finished (time+1) (getP (modifyIdx (modifyIdx (modifyIdx ps1 c setReadyState) c (selectProc time)) c decRem) c).name],
               ⟨some c, some c, some c, [(c, time+1)]⟩⟩ := by
            simp [rrBody, rrNeeds, rrFinishStep, rrPreemptStep, rrPickStep, execUnit, hfinc, hq, hdec]
          rw [hbody]
          have hps' : ∀ i, i ≠ c →
              getP (modifyIdx (modifyIdx (modifyIdx (modifyIdx ps1 c setReadyState) c (selectProc time)) c decRem) c (finishAt (time+1))) i
                = getP ps1 i := by
            intro i hi
            rw [getP_modifyIdx_ne _ _ _ _ hi, getP_modifyIdx_ne _ _ _ _ hi,
              getP_modifyIdx_ne _ _ _ _ hi, getP_modifyIdx_ne _ _ _ _ hi]
          have hpsc : getP (modifyIdx (modifyIdx (modifyIdx (modifyIdx ps1 c setReadyState) c (selectProc time)) c decRem) c (finishAt (time+1))) c
              = finishAt (time+1) (decRem (selectProc time (setReadyState (getP ps1 c)))) := by
            rw [getP_modifyIdx_self, hgsd]
            rw [modifyIdx_length, modifyIdx_length, modifyIdx_length]
            exact hclen
          refine ⟨⟨?_, ?_, List.nodup_nil, ?_, ?_, ?_⟩, ?_, ?_, ?_, ?_⟩
          · rw [modifyIdx_length, modifyIdx_length, modifyIdx_length, modifyIdx_length]; exact h1
          · intro i hi; simp at hi
          · intro c' hc'; exact Option.noConfusion hc'
          · intro q2 hq2
            have hqc : q2 = c := (Option.some.inj hq2).symm
            subst hqc
            refine ⟨h4c.1, Or.inr ⟨?_, by simp⟩⟩
            rw [hpsc]
            rw [hgsd] at hdec
            simpa [Process.is_finished, finishAt] using hdec
          · intro i hfi
            by_cases hic : i = c
            · subst hic
              rw [hpsc]
              simp only [finishAt, decRem]
              exact selectProc_start_ne time _
            · rw [hps' i hic] at hfi ⊢
              exact h6 i hfi
          · intro p hp
            have hpc : p = c := (Option.some.inj hp).symm
            subst hpc
            exact ⟨rfl, Or.inr rfl⟩
          · intro e he
            rcases List.mem_append.mp he with he | he
            · exact hA e he
            · simp only [List.mem_cons, List.not_mem_nil, or_false] at he
              rcases he with rfl | rfl <;> simp [labelOk]
          · intro pr hpr
            simp only [List.mem_singleton] at hpr
            subst hpr; rfl
          · rw [execTicks_modifyIdx_same _ _ _ (fun p => ⟨(finishAt_core _ p).2.2.1, (finishAt_core _ p).2.2.2.1⟩),
              execTicks_modifyIdx_decRem _ c hclen3,
              execTicks_modifyIdx_same _ _ _ (fun p => ⟨(selectProc_core _ p).2.2.1, (selectProc_core _ p).2.2.2.1⟩),
              execTicks_modifyIdx_same _ _ setReadyState (fun p => ⟨rfl, rfl⟩),
              idleCount_append, hA0]
            simp [idleCount]
        · have hbody : rrBody quantum time ps1 ai1 [] (some c) cq evA =
              ⟨⟨modifyIdx (modifyIdx (modifyIdx ps1 c setReadyState) c (selectProc time)) c decRem,
                ai1, [], some c, 1⟩,
               evA ++ [Event.selected time (getP (modifyIdx ps1 c setReadyState) c).name (getP (modifyIdx ps1 c setReadyState) c).remaining],
               ⟨some c, some c, some c, []⟩⟩ := by
            simp [rrBody, rrNeeds, rrFinishStep, rrPreemptStep, rrPickStep, execUnit, hfinc, hq, hdec]
          rw [hbody]
          refine ⟨⟨?_, ?_, List.nodup_nil, ?_, ?_, ?_⟩, ?_, ?_, ?_, ?_⟩
          · rw [modifyIdx_length, modifyIdx_length, modifyIdx_length]; exact h1
          · intro i hi; simp at hi
          · intro c' hc'
            have hcc : c' = c := (Option.some.inj hc').symm
            subst hcc
            refine ⟨h4c.1, by simp, ?_, rfl, ?_⟩
            · simpa using hdec
            · rw [hgsd]
              simp only [decRem]
              exact selectProc_start_ne time _
          · intro q2 hq2
            have hqc : q2 = c := (Option.some.inj hq2).symm
            subst hqc
            exact ⟨h4c.1, Or.inl rfl⟩
          · intro i hfi
            by_cases hic : i = c
            · subst hic
              rw [hgsd]
              simp only [decRem]
              exact selectProc_start_ne time _
            · rw [getP_modifyIdx_ne _ _ _ _ hic, getP_modifyIdx_ne _ _ _ _ hic,
                getP_modifyIdx_ne _ _ _ _ hic] at hfi ⊢
              exact h6 i hfi
          · intro p hp
            have hpc : p = c := (Option.some.inj hp).symm
            subst hpc
            exact ⟨rfl, Or.inr rfl⟩
          · intro e he
            rcases List.mem_append.mp he with he | he
            · exact hA e he
            · simp only [List.mem_singleton] at he
              subst he; simp [labelOk]
          · intro pr hpr; simp at hpr
          · rw [execTicks_modifyIdx_decRem _ c hclen3,
              execTicks_modifyIdx_same _ _ _ (fun p => ⟨(selectProc_core _ p).2.2.1, (selectProc_core _ p).2.2.2.1⟩),
              execTicks_modifyIdx_same _ _ setReadyState (fun p => ⟨rfl, rfl⟩),
              idleCount_append, hA0]
            simp [idleCount]
      | cons j rest =>
        have hjr : j ∈ ready1 := by rw [hr]; exact List.mem_cons_self _ _
        have hjai : j < ai1 := h2 j hjr
        have hjlen : j < ps1.length := lt_of_lt_of_le hjai h1
        have hjc : j ≠ c := fun hcon => hcnr (hcon ▸ hjr)
        have hjrest : j ∉ rest := by
          rw [hr] at h3
          exact (List.nodup_cons.mp h3).1
        have hrest2 : ∀ i ∈ rest, i < ai1 :=
          fun i hi => h2 i (by rw [hr]; exact List.mem_cons_of_mem _ hi)
        have hrestnd : rest.Nodup := by
          rw [hr] at h3
          exact (List.nodup_cons.mp h3).2
        have hcrest : c ∉ rest := fun hcon => hcnr (by rw [hr]; exact List.mem_cons_of_mem _ hcon)
        have hndtail : (rest ++ [c]).Nodup := by
          rw [List.nodup_append]
          exact ⟨hrestnd, List.nodup_singleton c, by
            intro x hx hxc
            simp only [List.mem_singleton] at hxc
            subst hxc
            exact hcrest hx⟩
        have hjtail : j ∉ rest ++ [c] := by
          intro hcon
          rcases List.mem_append.mp hcon with hm | hm
          · exact hjrest hm
          · simp only [List.mem_singleton] at hm
            exact hjc hm
        have htailbnd : ∀ i, i ∈ rest ++ [c] → i < ai1 := by
          intro i hi
          rcases List.mem_append.mp hi with hm | hm
          · exact hrest2 i hm
          · simp only [List.mem_singleton] at hm
            subst hm
            exact h4c.1
        have hjlen2 : j < (modifyIdx ps1 c setReadyState).length := by
          rw [modifyIdx_length]; exact hjlen
        have hjlen3 : j < (modifyIdx (modifyIdx ps1 c setReadyState) j (selectProc time)).length := by
          rw [modifyIdx_length]; exact hjlen2
        have hgsd : getP (modifyIdx (modifyIdx (modifyIdx ps1 c setReadyState) j (selectProc time)) j decRem) j =
            decRem (selectProc time (getP ps1 j)) := by
          rw [getP_modifyIdx_self _ _ _ hjlen3, getP_modifyIdx_self _ _ _ hjlen2,
            getP_modifyIdx_ne _ _ _ _ hjc]
        have hlastj : last ≠ some j := by
          intro hcon
          have := h4c.2.2.2.1
          rw [this] at hcon
          exact hjc (Option.some.inj hcon).symm
        by_cases hdec : (getP (modifyIdx (modifyIdx (modifyIdx ps1 c setReadyState) j (selectProc time)) j decRem) j).is_finished = true
        · have hbody : rrBody quantum time ps1 ai1 (j :: rest) (some c) cq evA =
              ⟨⟨modifyIdx (modifyIdx (modifyIdx (modifyIdx ps1 c setReadyState) j (selectProc time)) j decRem) j (finishAt (time+1)),
                ai1, rest ++ [c], none, 0⟩,
               evA ++ [Event.selected time (getP (modifyIdx ps1 c setReadyState) j).name (getP (modifyIdx ps1 c setReadyState) j).remaining,
                 Event.finished (time+1) (getP (modifyIdx (modifyIdx (modifyIdx ps1 c setReadyState) j (selectProc time)) j decRem) j).name],
               ⟨some j, some j, some c, [(j, time+1)]⟩⟩ := by
            simp [rrBody, rrNeeds, rrFinishStep, rrPreemptStep, rrPickStep, execUnit, hfinc, hq, hdec]
          rw [hbody]
          have hps' : ∀ i, i ≠ j → i ≠ c →
              getP (modifyIdx (modifyIdx (modifyIdx (modifyIdx ps1 c setReadyState) j (selectProc time)) j decRem) j (finishAt (time+1))) i
                = getP ps1 i := by
            intro i hi hic
            rw [getP_modifyIdx_ne _ _ _ _ hi, getP_modifyIdx_ne _ _ _ _ hi,
              getP_modifyIdx_ne _ _ _ _ hi, getP_modifyIdx_ne _ _ _ _ hic]
          have hpsC : getP (modifyIdx (modifyIdx (modifyIdx (modifyIdx ps1 c setReadyState) j (selectProc time)) j decRem) j (finishAt (time+1))) c
              = setReadyState (getP ps1 c) := by
            rw [getP_modifyIdx_ne _ _ _ _ (Ne.symm hjc), getP_modifyIdx_ne _ _ _ _ (Ne.symm hjc),
              getP_modifyIdx_ne _ _ _ _ (Ne.symm hjc), getP_modifyIdx_self _ _ _ hclen]
          have hpsj : getP (modifyIdx (modifyIdx (modifyIdx (modifyIdx ps1 c setReadyState) j (selectProc time)) j decRem) j (finishAt (time+1))) j
              = finishAt (time+1) (decRem (selectProc time (getP ps1 j))) := by
            rw [getP_modifyIdx_self, hgsd]
            rw [modifyIdx_length, modifyIdx_length, modifyIdx_length]
            exact hjlen
          refine ⟨⟨?_, htailbnd, hndtail, ?_, ?_, ?_⟩, ?_, ?_, ?_, ?_⟩
          · rw [modifyIdx_length, modifyIdx_length, modifyIdx_length, modifyIdx_length]; exact h1
          · intro c' hc'; exact Option.noConfusion hc'
          · intro q2 hq2
            have hqj : q2 = j := (Option.some.inj hq2).symm
            subst hqj
            refine ⟨hjai, Or.inr ⟨?_, hjtail⟩⟩
            rw [hpsj]
            rw [hgsd] at hdec
            simpa [Process.is_finished, finishAt] using hdec
          · intro i hfi
            by_cases hij : i = j
            · subst hij
              rw [hpsj]
              simp only [finishAt, decRem]
              exact selectProc_start_ne time _
            · by_cases hicc : i = c
              · subst hicc
                rw [hpsC] at hfi ⊢
                simp only [setReadyState] at hfi ⊢
                exact h6 _ hfi
              · rw [hps' i hij hicc] at hfi ⊢
                exact h6 i hfi
          · intro p hp
            have hpj : p = j := (Option.some.inj hp).symm
            subst hpj
            exact ⟨rfl, Or.inl hlastj⟩
          · intro e he
            rcases List.mem_append.mp he with he | he
            · exact hA e he
            · simp only [List.mem_cons, List.not_mem_nil, or_false] at he
              rcases he with rfl | rfl <;> simp [labelOk]
          · intro pr hpr
            simp only [List.mem_singleton] at hpr
            subst hpr; rfl
          · rw [execTicks_modifyIdx_same _ _ _ (fun p => ⟨(finishAt_core _ p).2.2.1, (finishAt_core _ p).2.2.2.1⟩),
              execTicks_modifyIdx_decRem _ j hjlen3,
              execTicks_modifyIdx_same _ _ _ (fun p => ⟨(selectProc_core _ p).2.2.1, (selectProc_core _ p).2.2.2.1⟩),
              execTicks_modifyIdx_same _ _ setReadyState (fun p => ⟨rfl, rfl⟩),
              idleCount_append, hA0]
            simp [idleCount]
        · have hbody : rrBody quantum time ps1 ai1 (j :: rest) (some c) cq evA =
              ⟨⟨modifyIdx (modifyIdx (modifyIdx ps1 c setReadyState) j (selectProc time)) j decRem,
                ai1, rest ++ [c], some j, 1⟩,
               evA ++ [Event.selected time (getP (modifyIdx ps1 c setReadyState) j).name (getP (modifyIdx ps1 c setReadyState) j).remaining],
               ⟨some j, some j, some c, []⟩⟩ := by
            simp [rrBody, rrNeeds, rrFinishStep, rrPreemptStep, rrPickStep, execUnit, hfinc, hq, hdec]
          rw [hbody]
          have hpsC : getP (modifyIdx (modifyIdx (modifyIdx ps1 c setReadyState) j (selectProc time)) j decRem) c
              = setReadyState (getP ps1 c) := by
            rw [getP_modifyIdx_ne _ _ _ _ (Ne.symm hjc), getP_modifyIdx_ne _ _ _ _ (Ne.symm hjc),
              getP_modifyIdx_self _ _ _ hclen]
          refine ⟨⟨?_, htailbnd, hndtail, ?_, ?_, ?_⟩, ?_, ?_, ?_, ?_⟩
          · rw [modifyIdx_length, modifyIdx_length, modifyIdx_length]; exact h1
          · intro c' hc'
            have hcj : c' = j := (Option.some.inj hc').symm
            subst hcj
            refine ⟨hjai, hjtail, ?_, rfl, ?_⟩
            · simpa using hdec
            · rw [hgsd]
              simp only [decRem]
              exact selectProc_start_ne time _
          · intro q2 hq2
            have hqj : q2 = j := (Option.some.inj hq2).symm
            subst hqj
            exact ⟨hjai, Or.inl rfl⟩
          · intro i hfi
            by_cases hij : i = j
            · subst hij
              rw [hgsd]
              simp only [decRem]
              exact selectProc_start_ne time _
            · by_cases hicc : i = c
              · subst hicc
                rw [hpsC] at hfi ⊢
                simp only [setReadyState] at hfi ⊢
                exact h6 _ hfi
              · rw [getP_modifyIdx_ne _ _ _ _ hij, getP_modifyIdx_ne _ _ _ _ hij,
                  getP_modifyIdx_ne _ _ _ _ hicc] at hfi ⊢
                exact h6 i hfi
          · intro p hp
            have hpj : p = j := (Option.some.inj hp).symm
            subst hpj
            exact ⟨rfl, Or.inl hlastj⟩
          · intro e he
            rcases List.mem_append.mp he with he | he
            · exact hA e he
            · simp only [List.mem_singleton] at he
              subst he; simp [labelOk]
          · intro pr hpr; simp at hpr
          · rw [execTicks_modifyIdx_decRem _ j hjlen3,
              execTicks_modifyIdx_same _ _ _ (fun p => ⟨(selectProc_core _ p).2.2.1, (selectProc_core _ p).2.2.2.1⟩),
              execTicks_modifyIdx_same _ _ setReadyState (fun p => ⟨rfl, rfl⟩),
              idleCount_append, hA0]
            simp [idleCount]
    · -- quantum not yet exhausted: the running process silently continues
      have hclen2 : c < (modifyIdx ps1 c decRem).length := by
        rw [modifyIdx_length]; exact hclen
      have hgd : getP (modifyIdx ps1 c decRem) c = decRem (getP ps1 c) :=
        getP_modifyIdx_self ps1 c decRem hclen
      by_cases hdec : (getP (modifyIdx ps1 c decRem) c).is_finished = true
      · have hbody : rrBody quantum time ps1 ai1 ready1 (some c) cq evA =
            ⟨⟨modifyIdx (modifyIdx ps1 c decRem) c (finishAt (time+1)), ai1, ready1, none, 0⟩,
             evA ++ [Event.finished (time+1) (getP (modifyIdx ps1 c decRem) c).name],
             ⟨some c, none, none, [(c, time+1)]⟩⟩ := by
          simp [rrBody, rrNeeds, rrFinishStep, rrPreemptStep, rrPickStep, execUnit, hfinc, hq, hdec]
        rw [hbody]
        have hps' : ∀ i, i ≠ c →
            getP (modifyIdx (modifyIdx ps1 c decRem) c (finishAt (time+1))) i = getP ps1 i := by
          intro i hi
          rw [getP_modifyIdx_ne _ _ _ _ hi, getP_modifyIdx_ne _ _ _ _ hi]
        have hpsc : getP (modifyIdx (modifyIdx ps1 c decRem) c (finishAt (time+1))) c =
            finishAt (time+1) (decRem (getP ps1 c)) := by
          rw [getP_modifyIdx_self _ _ _ hclen2, hgd]
        refine ⟨⟨?_, h2, h3, ?_, ?_, ?_⟩, ?_, ?_, ?_, ?_⟩
        · rw [modifyIdx_length, modifyIdx_length]; exact h1
        · intro c' hc'; exact Option.noConfusion hc'
        · intro q2 hq2
          have hqc : q2 = c := (Option.some.inj hq2).symm
          subst hqc
          refine ⟨h4c.1, Or.inr ⟨?_, h4c.2.1⟩⟩
          rw [hpsc]
          rw [hgd] at hdec
          simpa [Process.is_finished, finishAt] using hdec
        · intro i hfi
          by_cases hic : i = c
          · subst hic
            rw [hpsc] at hfi ⊢
            simpa [finishAt, decRem] using h4c.2.2.2.2
          · rw [hps' i hic] at hfi ⊢
            exact h6 i hfi
        · intro p hp; exact Option.noConfusion hp
        · intro e he
          rcases List.mem_append.mp he with he | he
          · exact hA e he
          · simp only [List.mem_singleton] at he
            subst he; simp [labelOk]
        · intro pr hpr
          simp only [List.mem_singleton] at hpr
          subst hpr; rfl
        · rw [execTicks_modifyIdx_same _ _ _ (fun p => ⟨(finishAt_core _ p).2.2.1, (finishAt_core _ p).2.2.2.1⟩),
            execTicks_modifyIdx_decRem ps1 c hclen, idleCount_append, hA0]
          simp [idleCount]
      · have hbody : rrBody quantum time ps1 ai1 ready1 (some c) cq evA =
            ⟨⟨modifyIdx ps1 c decRem, ai1, ready1, some c, cq + 1⟩, evA,
             ⟨some c, none, none, []⟩⟩ := by
          simp [rrBody, rrNeeds, rrFinishStep, rrPreemptStep, rrPickStep, execUnit, hfinc, hq, hdec]
        rw [hbody]
        refine ⟨⟨?_, h2, h3, ?_, ?_, ?_⟩, ?_, ?_, ?_, ?_⟩
        · rw [modifyIdx_length]; exact h1
        · intro c' hc'
          have hcc : c' = c := (Option.some.inj hc').symm
          subst hcc
          refine ⟨h4c.1, h4c.2.1, ?_, rfl, ?_⟩
          · simpa using hdec
          · rw [hgd]
            simpa [decRem] using h4c.2.2.2.2
        · intro q2 hq2
          have hqc : q2 = c := (Option.some.inj hq2).symm
          subst hqc
          exact ⟨h4c.1, Or.inl rfl⟩
        · intro i hfi
          by_cases hic : i = c
          · subst hic
            rw [hgd] at hfi ⊢
            simp only [decRem] at hfi ⊢
            exact h6 _ hfi
          · rw [getP_modifyIdx_ne _ _ _ _ hic] at hfi ⊢
            exact h6 i hfi
        · intro p hp; exact Option.noConfusion hp
        · intro e he; exact hA e he
        · intro pr hpr; simp at hpr
        · rw [execTicks_modifyIdx_decRem ps1 c hclen, hA0]
          simp

lemma rrTick_pres (quantum : Int) (time : Nat) (s : SchedState) (last : Option Nat)
    (h : SInv s last) :
    SInv (rrTick quantum time s).state (rrTick quantum time s).info.exec ∧
    selOnlyOnChangeRR last (rrTick quantum time s).info ∧
    (∀ e ∈ (rrTick quantum time s).evs, labelOk time e) ∧
    (∀ pr ∈ (rrTick quantum time s).info.finRecs, pr.2 = time + 1) ∧
    execTicks (rrTick quantum time s).state.procs +
      (idleCount (rrTick quantum time s).evs : Int) = execTicks s.procs + 1 := by
  have hmid := arrival_phase_inv time s last h
  have hb := rrBody_pres quantum time
    (markReady s.procs (collectArrivals s.procs time s.arrIdx).2)
    (collectArrivals s.procs time s.arrIdx).1
    (s.ready ++ (collectArrivals s.procs time s.arrIdx).2)
    s.cur s.cq
    (arrivedEvents (markReady s.procs (collectArrivals s.procs time s.arrIdx).2)
      (collectArrivals s.procs time s.arrIdx).2 time)
    last hmid (arrivedEvents_labels _ _ _) (arrivedEvents_idle _ _ _)
  have hE : execTicks (markReady s.procs (collectArrivals s.procs time s.arrIdx).2) =
      execTicks s.procs := execTicks_markReady _ _
  rw [hE] at hb
  exact hb

/-! Initial state facts. -/

lemma mem_insertByArrival (p a : Process) (l : List Process)
    (h : a ∈ insertByArrival p l) : a = p ∨ a ∈ l := by
  induction l with
  | nil => simpa [insertByArrival] using h
  | cons q t ih =>
    rw [insertByArrival] at h
    by_cases hq : q.arrival ≤ p.arrival
    · rw [if_pos hq] at h
      rcases List.mem_cons.mp h with rfl | h2
      · exact Or.inr (List.mem_cons_self _ _)
      · rcases ih h2 with h3 | h3
        · exact Or.inl h3
        · exact Or.inr (List.mem_cons_of_mem _ h3)
    · rw [if_neg hq] at h
      rcases List.mem_cons.mp h with rfl | h2
      · exact Or.inl rfl
      · exact Or.inr h2

lemma mem_foldl_insert (a : Process) :
    ∀ (l acc : List Process),
      a ∈ l.foldl (fun acc p => insertByArrival p acc) acc → a ∈ acc ∨ a ∈ l := by
  intro l
  induction l with
  | nil => intro acc h; exact Or.inl h
  | cons p t ih =>
    intro acc h
    rcases ih (insertByArrival p acc) h with h3 | h3
    · rcases mem_insertByArrival p a acc h3 with h4 | h4
      · exact Or.inr (h4 ▸ List.mem_cons_self _ _)
      · exact Or.inl h4
    · exact Or.inr (List.mem_cons_of_mem _ h3)

lemma mem_sortByArrival (a : Process) (l : List Process) (h : a ∈ sortByArrival l) : a ∈ l := by
  rcases mem_foldl_insert a l [] h with h2 | h2
  · simp at h2
  · exact h2

lemma getP_mem (ps : List Process) (j : Nat) (h : j < ps.length) : getP ps j ∈ ps := by
  induction ps generalizing j with
  | nil => simp at h
  | cons p t ih =>
    cases j with
    | zero => exact List.mem_cons_self _ _
    | succ n => exact List.mem_cons_of_mem _ (ih n (by simpa using h))

lemma getP_oob (ps : List Process) (j : Nat) (h : ¬ j < ps.length) : getP ps j = dfltProc := by
  induction ps generalizing j with
  | nil => cases j <;> rfl
  | cons p t ih =>
    cases j with
    | zero => simp at h
    | succ n => exact ih n (fun hc => h (by simpa using Nat.succ_lt_succ hc))

lemma mem_mkProcs (p : Process) (descs : List (String × Int × Int)) (h : p ∈ mkProcs descs) :
    p.finish_time = none ∧ p.start_time = none ∧ p.remaining = p.burst := by
  rw [mkProcs] at h
  rcases List.mem_map.mp h with ⟨d, _, rfl⟩
  exact ⟨rfl, rfl, rfl⟩

lemma sInv_init (descs : List (String × Int × Int)) :
    SInv (initState (mkProcs descs)) none := by
  refine ⟨Nat.zero_le _, by intro j hj; simp [initState] at hj, List.nodup_nil, ?_, ?_, ?_⟩
  · intro c hc; exact Option.noConfusion hc
  · intro q hq; exact Option.noConfusion hq
  · intro j hfin
    by_cases hlt : j < (initState (mkProcs descs)).procs.length
    · have hmem := getP_mem _ j hlt
      have hmem2 := mem_sortByArrival _ _ hmem
      rw [(mem_mkProcs _ descs hmem2).1] at hfin
      exact absurd rfl hfin
    · rw [getP_oob _ j hlt] at hfin
      exact absurd rfl hfin

lemma execTicks_init (descs : List (String × Int × Int)) :
    execTicks (initState (mkProcs descs)).procs = 0 := by
  apply List.sum_eq_zero
  intro x hx
  rcases List.mem_map.mp hx with ⟨p, hp, rfl⟩
  have := mem_mkProcs p descs (mem_sortByArrival _ _ hp)
  rw [this.2.2]
  ring

/-! Claim C1. -/

/-- C1 counterexample: under round robin with quantum 2 and the single
process P1 (arrival 0, burst 3), the same process executes at ticks 1 and 2
(trace indices), yet a "selected" event labeled tick 2 is emitted when the
quantum expires and P1 is requeued and immediately re-dequeued.  This
refutes the claim that a "selected" event is appended only when the
executing process changes from the previous tick, and in particular its
round-robin clause. -/
theorem c1_counterexample :
    ¬ chain selOnlyOnChange none (schedule_rr (mkProcs [("P1", 0, 3)]) 4 2).trace ∧
    ((schedule_rr (mkProcs [("P1", 0, 3)]) 4 2).trace.map TickInfo.exec) =
      [some 0, some 0, some 0, none] ∧
    Event.selected 2 "P1" 1 ∈ (schedule_rr (mkProcs [("P1", 0, 3)]) 4 2).events := by
  refine ⟨?_, by decide, by decide⟩
  intro h
  have htr : (schedule_rr (mkProcs [("P1", 0, 3)]) 4 2).trace =
      [⟨some 0, some 0, none, []⟩, ⟨some 0, none, none, []⟩,
       ⟨some 0, some 0, some 0, [(0, 3)]⟩, ⟨none, none, none, []⟩] := by decide
  rw [htr] at h
  exact (h.2.2.1 0 rfl).2 rfl

/-- C1 (amended): under FCFS and preemptive SJF a "selected" event is
emitted at a tick only for the process executing that tick, and only when
it differs from the previous tick's executor; under round robin the same
holds except when the selected process is the one that was requeued on
quantum expiry in that same tick (it is then re-selected and "selected" is
re-emitted even though the same process continues). -/
theorem c1_amended (descs : List (String × Int × Int)) (runfor : Nat) (quantum : Int) :
    chain selOnlyOnChange none (schedule_fcfs (mkProcs descs) runfor).trace ∧
    chain selOnlyOnChange none (schedule_sjf_preemptive (mkProcs descs) runfor).trace ∧
    chain selOnlyOnChangeRR none (schedule_rr (mkProcs descs) runfor quantum).trace := by
  have hinv := sInv_init descs
  refine ⟨?_, ?_, ?_⟩
  · exact runLoop_chain fcfsTick SInv selOnlyOnChange
      (fun time s last h => ⟨(fcfsTick_pres time s last h).1, (fcfsTick_pres time s last h).2.1⟩)
      runfor 0 _ none hinv
  · exact runLoop_chain sjfTick SInv selOnlyOnChange
      (fun time s last h => ⟨(sjfTick_pres time s last h).1, (sjfTick_pres time s last h).2.1⟩)
      runfor 0 _ none hinv
  · exact runLoop_chain (rrTick quantum) SInv selOnlyOnChangeRR
      (fun time s last h => ⟨(rrTick_pres quantum time s last h).1, (rrTick_pres quantum time s last h).2.1⟩)
      runfor 0 _ none hinv

/-! Claim C2. -/

/-- C2 counterexample: in the round-robin scenario quantum=2, runFor=10,
P1(arrival 0, burst 3), P2(arrival 0, burst 3), process P2 finishes at tick
6, not 7 as claimed (total work is 6 ticks and the CPU is never idle before
tick 6): its recorded finish time is 6 and no "finished" event labeled 7
exists. -/
theorem c2_counterexample :
    ((schedule_rr (mkProcs [("P1", 0, 3), ("P2", 0, 3)]) 10 2).final.map
      (fun p => (p.name, p.finish_time))) = [("P1", some 5), ("P2", some 6)] ∧
    Event.finished 7 "P2" ∉ (schedule_rr (mkProcs [("P1", 0, 3), ("P2", 0, 3)]) 10 2).events := by
  exact ⟨by decide, by decide⟩

/-- C2 (amended): in that scenario P1 runs ticks 0-1 and is preempted, P2
runs ticks 2-3 and is preempted, P1 runs tick 4 and finishes at tick 5, P2
runs tick 5 and finishes at tick 6 (indices: P1 = 0, P2 = 1 in the sorted
working list). -/
theorem c2_amended :
    (schedule_rr (mkProcs [("P1", 0, 3), ("P2", 0, 3)]) 10 2).events =
      [Event.arrived 0 "P1", Event.arrived 0 "P2", Event.selected 0 "P1" 3,
       Event.selected 2 "P2" 3, Event.selected 4 "P1" 1, Event.finished 5 "P1",
       Event.selected 5 "P2" 1, Event.finished 6 "P2", Event.idle 6, Event.idle 7,
       Event.idle 8, Event.idle 9] ∧
    ((schedule_rr (mkProcs [("P1", 0, 3), ("P2", 0, 3)]) 10 2).trace.map TickInfo.exec) =
      [some 0, some 0, some 1, some 1, some 0, some 1, none, none, none, none] ∧
    ((schedule_rr (mkProcs [("P1", 0, 3), ("P2", 0, 3)]) 10 2).final.map
      (fun p => (p.name, p.start_time, p.finish_time))) =
      [("P1", some 0, some 5), ("P2", some 2, some 6)] := by
  refine ⟨by decide, by decide, by decide⟩

/-! Claim C4. -/

/-- C4: for every finished process the reported metrics satisfy
turnaround = finish_time - arrival, wait = turnaround - burst and
response = start_time - arrival. -/
theorem c4_metrics (p : Process) (f s : Nat) (hf : p.finish_time = some f)
    (hs : p.start_time = some s) :
    p.turnaround = some ((f : Int) - p.arrival) ∧
    p.wait_time = some ((f : Int) - p.arrival - p.burst) ∧
    p.response_time = some ((s : Int) - p.arrival) := by
  simp [Process.turnaround, Process.wait_time, Process.response_time, hf, hs]

/-- C4 witness: the metric formulas evaluated on a concrete finished
process. -/
theorem c4_metrics_witness :
    (⟨"A", 1, 2, 0, some 3, some 6, "Finished"⟩ : Process).turnaround = some 5 ∧
    (⟨"A", 1, 2, 0, some 3, some 6, "Finished"⟩ : Process).wait_time = some 3 ∧
    (⟨"A", 1, 2, 0, some 3, some 6, "Finished"⟩ : Process).response_time = some 2 := by
  have h := c4_metrics (⟨"A", 1, 2, 0, some 3, some 6, "Finished"⟩ : Process) 6 3 rfl rfl
  exact ⟨h.1.trans (by decide), h.2.1.trans (by decide), h.2.2.trans (by decide)⟩

/-! Claim C8. -/

/-- C8: if the algorithm is rr and no quantum was supplied, validation
fails with a single fatal message and the pipeline returns an error: the
simulation never runs and no output lines are produced. -/
theorem c8_rr_missing_quantum (p : Params) (hu : p.use = some "rr")
    (hq : p.quantum = none) :
    ∃ msg, runProgram p = Except.error msg := by
  rcases hpc : p.processcount with _ | pc
  · exact ⟨"Error: Missing parameter processcount",
      by simp [runProgram, validateParams, hpc]⟩
  · rcases hrf : p.runfor with _ | rf
    · exact ⟨"Error: Missing parameter runfor",
        by simp [runProgram, validateParams, hpc, hrf]⟩
    · exact ⟨"Error: Missing quantum parameter when use is 'rr'",
        by simp [runProgram, validateParams, hpc, hrf, hu, hq]⟩

/-- C8 witness: a concrete parameter set with algorithm rr and no quantum
is rejected. -/
theorem c8_rr_missing_quantum_witness :
    ∃ msg, runProgram ⟨some 1, some 5, some "rr", none, mkProcs [("A", 0, 2)]⟩ =
      Except.error msg :=
  c8_rr_missing_quantum ⟨some 1, some 5, some "rr", none, mkProcs [("A", 0, 2)]⟩ rfl rfl

/-! Claim C9. -/

/-- C9: the header line reports the number of parsed process descriptors
(`len(procs_input)`), not the processCount parameter: for any parameter
set with a dispatchable algorithm the first output line is
"<len(processes)> processes", and replacing the processCount field by any
value leaves the output unchanged. -/
theorem c9_header (p : Params) (u : String) (hu : p.use = some u)
    (hvalid : u = "fcfs" ∨ u = "fifo" ∨ u = "sjf" ∨ (u = "rr" ∧ ∃ qq, p.quantum = some qq)) :
    (∃ lines, run_scheduler p = Except.ok lines ∧
      lines.head? = some (toString p.processes.length ++ " processes")) ∧
    (∀ c : Option Int, run_scheduler { p with processcount := c } = run_scheduler p) := by
  refine ⟨?_, fun c => rfl⟩
  rcases hvalid with rfl | rfl | rfl | ⟨rfl, qq, hqq⟩
  · cases hres : run_scheduler p with
    | error e => exact absurd hres (by simp [run_scheduler, hu])
    | ok lines =>
      refine ⟨lines, rfl, ?_⟩
      simp [run_scheduler, hu] at hres
      subst hres
      rfl
  · cases hres : run_scheduler p with
    | error e => exact absurd hres (by simp [run_scheduler, hu])
    | ok lines =>
      refine ⟨lines, rfl, ?_⟩
      simp [run_scheduler, hu] at hres
      subst hres
      rfl
  · cases hres : run_scheduler p with
    | error e => exact absurd hres (by simp [run_scheduler, hu])
    | ok lines =>
      refine ⟨lines, rfl, ?_⟩
      simp [run_scheduler, hu] at hres
      subst hres
      rfl
  · cases hres : run_scheduler p with
    | error e => exact absurd hres (by simp [run_scheduler, hu, hqq])
    | ok lines =>
      refine ⟨lines, rfl, ?_⟩
      simp [run_scheduler, hu, hqq] at hres
      subst hres
      rfl

/-- C9 witness: a parameter set whose processCount (7) disagrees with the
descriptor count (2): the header follows the descriptor count. -/
theorem c9_header_witness :
    ∃ lines, run_scheduler ⟨some 7, some 3, some "fcfs", none,
      mkProcs [("A", 0, 1), ("B", 0, 1)]⟩ = Except.ok lines ∧
      lines.head? = some "2 processes" := by
  have h := c9_header ⟨some 7, some 3, some "fcfs", none, mkProcs [("A", 0, 1), ("B", 0, 1)]⟩
    "fcfs" rfl (Or.inl rfl)
  obtain ⟨lines, h1, h2⟩ := h.1
  exact ⟨lines, h1, h2.trans (by decide)⟩

/-! Claim C7. -/

/-- C7: for every input and every policy, the loop performs exactly
`runfor` tick iterations (the trace has length `runfor`, even after all
processes have finished), and in each tick exactly one of execution and
idling happens, so the total executed units recorded in the final process
list plus the number of "idle" events equals `runfor`. -/
theorem c7_tick_accounting (descs : List (String × Int × Int)) (runfor : Nat) (quantum : Int) :
    ((schedule_fcfs (mkProcs descs) runfor).trace.length = runfor ∧
      execTicks (schedule_fcfs (mkProcs descs) runfor).final +
        (idleCount (schedule_fcfs (mkProcs descs) runfor).events : Int) = runfor) ∧
    ((schedule_sjf_preemptive (mkProcs descs) runfor).trace.length = runfor ∧
      execTicks (schedule_sjf_preemptive (mkProcs descs) runfor).final +
        (idleCount (schedule_sjf_preemptive (mkProcs descs) runfor).events : Int) = runfor) ∧
    ((schedule_rr (mkProcs descs) runfor quantum).trace.length = runfor ∧
      execTicks (schedule_rr (mkProcs descs) runfor quantum).final +
        (idleCount (schedule_rr (mkProcs descs) runfor quantum).events : Int) = runfor) := by
  have hinv := sInv_init descs
  have hzero := execTicks_init descs
  refine ⟨⟨runLoop_trace_length _ _ _ _, ?_⟩, ⟨runLoop_trace_length _ _ _ _, ?_⟩,
    ⟨runLoop_trace_length _ _ _ _, ?_⟩⟩
  · have := runLoop_sum fcfsTick SInv
      (fun time s last h => ⟨(fcfsTick_pres time s last h).1, (fcfsTick_pres time s last h).2.2.2.2⟩)
      runfor 0 _ none hinv
    rw [hzero] at this
    simpa using this
  · have := runLoop_sum sjfTick SInv
      (fun time s last h => ⟨(sjfTick_pres time s last h).1, (sjfTick_pres time s last h).2.2.2.2⟩)
      runfor 0 _ none hinv
    rw [hzero] at this
    simpa using this
  · have := runLoop_sum (rrTick quantum) SInv
      (fun time s last h => ⟨(rrTick_pres quantum time s last h).1, (rrTick_pres quantum time s last h).2.2.2.2⟩)
      runfor 0 _ none hinv
    rw [hzero] at this
    simpa using this

/-! Claim C10. -/

lemma mem_getP_exists (ps : List Process) (p : Process) (h : p ∈ ps) :
    ∃ j, j < ps.length ∧ getP ps j = p := by
  induction ps with
  | nil => simp at h
  | cons q t ih =>
    rcases List.mem_cons.mp h with rfl | h2
    · exact ⟨0, by simp, rfl⟩
    · obtain ⟨j, hj, hgp⟩ := ih h2
      exact ⟨j + 1, by simpa using Nat.succ_lt_succ hj, hgp⟩

lemma runLoop_finished_started (tick : Nat → SchedState → TickOut)
    (H : ∀ time s last, SInv s last → SInv (tick time s).state (tick time s).info.exec)
    (fuel time : Nat) (s : SchedState) (last : Option Nat) (h : SInv s last) :
    ∀ p ∈ (runLoop tick time fuel s).final, p.finish_time ≠ none → p.start_time ≠ none := by
  have hG := runLoop_final_inv tick SInv
    (fun ps => ∀ j, (getP ps j).finish_time ≠ none → (getP ps j).start_time ≠ none)
    H (fun s2 last2 hi2 => hi2.2.2.2.2.2) fuel time s last h
  intro p hp hfin
  obtain ⟨j, hj, rfl⟩ := mem_getP_exists _ p hp
  exact hG j hfin

/-- C10: for every run with all bursts positive (the hypothesis is part of
the claim; the property holds regardless), every process of the final list
whose finish_time is set also has its start_time set — selection always
precedes execution — and consequently its wait, turnaround and response
metrics are all computed from actual times (none of them is `None`, so the
zero-substitution fallback of the metrics rendering is never taken). -/
theorem c10_finish_implies_start (descs : List (String × Int × Int)) (runfor : Nat)
    (quantum : Int) (_hb : ∀ d ∈ descs, 0 < d.2.2) :
    (∀ p ∈ (schedule_fcfs (mkProcs descs) runfor).final, p.finish_time ≠ none →
      p.start_time ≠ none ∧ p.turnaround ≠ none ∧ p.wait_time ≠ none ∧ p.response_time ≠ none) ∧
    (∀ p ∈ (schedule_sjf_preemptive (mkProcs descs) runfor).final, p.finish_time ≠ none →
      p.start_time ≠ none ∧ p.turnaround ≠ none ∧ p.wait_time ≠ none ∧ p.response_time ≠ none) ∧
    (∀ p ∈ (schedule_rr (mkProcs descs) runfor quantum).final, p.finish_time ≠ none →
      p.start_time ≠ none ∧ p.turnaround ≠ none ∧ p.wait_time ≠ none ∧ p.response_time ≠ none) := by
  have hinv := sInv_init descs
  have hmk : ∀ (tick : Nat → SchedState → TickOut),
      (∀ time s last, SInv s last → SInv (tick time s).state (tick time s).info.exec) →
      ∀ p ∈ (runLoop tick 0 runfor (initState (mkProcs descs))).final, p.finish_time ≠ none →
        p.start_time ≠ none ∧ p.turnaround ≠ none ∧ p.wait_time ≠ none ∧
        p.response_time ≠ none := by
    intro tick H p hp hfin
    have hst := runLoop_finished_started tick H runfor 0 _ none hinv p hp hfin
    refine ⟨hst, ?_, ?_, ?_⟩
    · simp only [Process.turnaround]
      cases hf : p.finish_time
      · exact absurd hf hfin
      · simp [hf]
    · simp only [Process.wait_time, Process.turnaround]
      cases hf : p.finish_time
      · exact absurd hf hfin
      · simp [hf]
    · simp only [Process.response_time]
      cases hsv : p.start_time
      · exact absurd hsv hst
      · simp [hsv]
  exact ⟨hmk fcfsTick (fun time s last h => (fcfsTick_pres time s last h).1),
    hmk sjfTick (fun time s last h => (sjfTick_pres time s last h).1),
    hmk (rrTick quantum) (fun time s last h => (rrTick_pres quantum time s last h).1)⟩

/-- C10 witness: a concrete run with positive bursts; the finished process
has all metrics available. -/
theorem c10_finish_implies_start_witness :
    (∀ d ∈ [("A", (0 : Int), (1 : Int))], 0 < d.2.2) ∧
    (∀ p ∈ (schedule_fcfs (mkProcs [("A", (0 : Int), (1 : Int))]) 2).final,
      p.finish_time ≠ none → p.start_time ≠ none ∧ p.turnaround ≠ none ∧
        p.wait_time ≠ none ∧ p.response_time ≠ none) := by
  refine ⟨by decide, ?_⟩
  exact (c10_finish_implies_start [("A", (0 : Int), (1 : Int))] 2 1 (by decide)).1

/-! Claim C3. -/

/-- C3: for every input and every policy, every "finished" event recorded
during tick `t` is labeled `t + 1` (the finish is recorded in the execution
phase of tick `t`, immediately, with `finish_time = t + 1`), and in the
chronological event log an "arrived" event is never followed by a
"finished" event with the same tick label — equivalently, a finish event
labeled `t+1` appears in the log before every arrival event also labeled
`t+1`. -/
theorem c3_finish_labels (descs : List (String × Int × Int)) (runfor : Nat) (quantum : Int) :
    ((schedule_fcfs (mkProcs descs) runfor).events.Pairwise noArrThenFin ∧
      ∀ t info, (schedule_fcfs (mkProcs descs) runfor).trace[t]? = some info →
        ∀ pr ∈ info.finRecs, pr.2 = t + 1) ∧
    ((schedule_sjf_preemptive (mkProcs descs) runfor).events.Pairwise noArrThenFin ∧
      ∀ t info, (schedule_sjf_preemptive (mkProcs descs) runfor).trace[t]? = some info →
        ∀ pr ∈ info.finRecs, pr.2 = t + 1) ∧
    ((schedule_rr (mkProcs descs) runfor quantum).events.Pairwise noArrThenFin ∧
      ∀ t info, (schedule_rr (mkProcs descs) runfor quantum).trace[t]? = some info →
        ∀ pr ∈ info.finRecs, pr.2 = t + 1) := by
  have hinv := sInv_init descs
  refine ⟨⟨?_, ?_⟩, ⟨?_, ?_⟩, ⟨?_, ?_⟩⟩
  · exact (runLoop_labels fcfsTick SInv
      (fun time s last h => ⟨(fcfsTick_pres time s last h).1, (fcfsTick_pres time s last h).2.2.1⟩)
      runfor 0 _ none hinv).2
  · intro t info hinfo pr hpr
    have := runLoop_finrecs fcfsTick SInv
      (fun time s last h => ⟨(fcfsTick_pres time s last h).1, (fcfsTick_pres time s last h).2.2.2.1⟩)
      runfor 0 _ none hinv t info hinfo pr hpr
    omega
  · exact (runLoop_labels sjfTick SInv
      (fun time s last h => ⟨(sjfTick_pres time s last h).1, (sjfTick_pres time s last h).2.2.1⟩)
      runfor 0 _ none hinv).2
  · intro t info hinfo pr hpr
    have := runLoop_finrecs sjfTick SInv
      (fun time s last h => ⟨(sjfTick_pres time s last h).1, (sjfTick_pres time s last h).2.2.2.1⟩)
      runfor 0 _ none hinv t info hinfo pr hpr
    omega
  · exact (runLoop_labels (rrTick quantum) SInv
      (fun time s last h => ⟨(rrTick_pres quantum time s last h).1, (rrTick_pres quantum time s last h).2.2.1⟩)
      runfor 0 _ none hinv).2
  · intro t info hinfo pr hpr
    have := runLoop_finrecs (rrTick quantum) SInv
      (fun time s last h => ⟨(rrTick_pres quantum time s last h).1, (rrTick_pres quantum time s last h).2.2.2.1⟩)
      runfor 0 _ none hinv t info hinfo pr hpr
    omega

/-! Claim C5. -/

lemma sjfBody_exec_eq (time : Nat) (ps1 : List Process) (ai1 : Nat) (ready1 : List Nat)
    (cur : Option Nat) (evA : List Event) (c0 : Nat) (cs : List Nat)
    (hc : sjfCandidates ps1 ready1 cur = c0 :: cs) :
    (sjfBody time ps1 ai1 ready1 cur evA).info.exec = some (pyMin (idxLt ps1) c0 cs) := by
  by_cases hEq : some (pyMin (idxLt ps1) c0 cs) = cur
  · simp [sjfBody, hc, hEq]
  · simp [sjfBody, hc, hEq]

/-- C5: at every tick, the process the preemptive-SJF step chooses to run
is a minimum of the candidate set (the non-finished ready processes plus
the unfinished running process) under the ordered key
(remaining, arrival, name): it belongs to the candidate set and no
candidate compares strictly below it; consequently, if process `a` is
running (unfinished) while `b` is ready and unfinished with strictly
smaller remaining time, then `a` does not execute at this tick — `b` (or a
still-smaller candidate) preempts it.  `sjfBody` is the whole per-tick
step of `schedule_sjf_preemptive` after the arrival phase, so its
candidate set is exactly the one the code recomputes each tick. -/
theorem c5_sjf_minimum (time : Nat) (ps1 : List Process) (ai1 : Nat) (ready1 : List Nat)
    (cur : Option Nat) (evA : List Event) :
    (∀ c, (sjfBody time ps1 ai1 ready1 cur evA).info.exec = some c →
      c ∈ sjfCandidates ps1 ready1 cur ∧
      ∀ x ∈ sjfCandidates ps1 ready1 cur, idxLt ps1 x c = false) ∧
    (∀ a b, cur = some a → (getP ps1 a).is_finished = false → b ∈ ready1 →
      (getP ps1 b).is_finished = false →
      (getP ps1 b).remaining < (getP ps1 a).remaining →
      (sjfBody time ps1 ai1 ready1 cur evA).info.exec ≠ some a) := by
  have hpart1 : ∀ c, (sjfBody time ps1 ai1 ready1 cur evA).info.exec = some c →
      c ∈ sjfCandidates ps1 ready1 cur ∧
      ∀ x ∈ sjfCandidates ps1 ready1 cur, idxLt ps1 x c = false := by
    intro c hcexec
    cases hc : sjfCandidates ps1 ready1 cur with
    | nil =>
      exfalso
      have : (sjfBody time ps1 ai1 ready1 cur evA).info.exec = none := by
        simp [sjfBody, hc]
      rw [this] at hcexec
      exact Option.noConfusion hcexec
    | cons c0 cs =>
      have hexec := sjfBody_exec_eq time ps1 ai1 ready1 cur evA c0 cs hc
      rw [hexec] at hcexec
      have hcc : c = pyMin (idxLt ps1) c0 cs := (Option.some.inj hcexec).symm
      subst hcc
      constructor
      · rcases pyMin_mem (idxLt ps1) c0 cs with h | h
        · rw [h]; exact List.mem_cons_self _ _
        · exact List.mem_cons_of_mem _ h
      · intro x hx
        rcases List.mem_cons.mp hx with rfl | hx2
        · exact pyMin_not_lt (idxLt ps1) (idxLt_trans ps1) (idxLt_irrefl ps1) cs x x (Or.inl rfl)
        · exact pyMin_not_lt (idxLt ps1) (idxLt_trans ps1) (idxLt_irrefl ps1) cs c0 x (Or.inr hx2)
  refine ⟨hpart1, ?_⟩
  intro a b hcur hafin hbready hbfin hblt hcontra
  have hfacts := hpart1 a hcontra
  have hbmem : b ∈ sjfCandidates ps1 ready1 cur :=
    sjfCandidates_mem_ready ps1 ready1 cur b hbready hbfin
  have hmin := hfacts.2 b hbmem
  have hlt : idxLt ps1 b a = true := by
    simp only [idxLt, keyLt, procKey]
    simp [hblt]
  rw [hmin] at hlt
  exact Bool.noConfusion hlt

/-- C5 witness: a concrete state where the running process A (remaining 2)
is preempted by the ready process B (remaining 1): the chosen executor is B,
it is key-minimal, and A does not run. -/
theorem c5_sjf_minimum_witness :
    (1 ∈ sjfCandidates [⟨"A", 0, 3, 2, some 0, none, "Running"⟩,
        ⟨"B", 0, 2, 1, none, none, "Ready"⟩] [1] (some 0) ∧
      ∀ x ∈ sjfCandidates [⟨"A", 0, 3, 2, some 0, none, "Running"⟩,
        ⟨"B", 0, 2, 1, none, none, "Ready"⟩] [1] (some 0),
        idxLt [⟨"A", 0, 3, 2, some 0, none, "Running"⟩,
          ⟨"B", 0, 2, 1, none, none, "Ready"⟩] x 1 = false) ∧
    (sjfBody 5 [⟨"A", 0, 3, 2, some 0, none, "Running"⟩,
      ⟨"B", 0, 2, 1, none, none, "Ready"⟩] 2 [1] (some 0) []).info.exec ≠ some 0 := by
  have h := c5_sjf_minimum 5 [⟨"A", 0, 3, 2, some 0, none, "Running"⟩,
    ⟨"B", 0, 2, 1, none, none, "Ready"⟩] 2 [1] (some 0) []
  refine ⟨h.1 1 (by decide), ?_⟩
  exact h.2 0 1 rfl (by decide) (by decide) (by decide) (by decide)

/-! Claim C6. -/

lemma rrBody_shape (quantum : Int) (time : Nat) (ps1 : List Process) (ai1 : Nat)
    (ready1 : List Nat) (cur : Option Nat) (cq : Nat) (evA : List Event) :
    ((rrBody quantum time ps1 ai1 ready1 cur cq evA).info.exec = none ∧
      (rrBody quantum time ps1 ai1 ready1 cur cq evA).info.sel = none ∧
      (rrBody quantum time ps1 ai1 ready1 cur cq evA).state.cur = none) ∨
    (∃ j, (rrBody quantum time ps1 ai1 ready1 cur cq evA).info.exec = some j ∧
      (rrBody quantum time ps1 ai1 ready1 cur cq evA).info.sel = some j ∧
      ((rrBody quantum time ps1 ai1 ready1 cur cq evA).state.cur = none ∨
        ((rrBody quantum time ps1 ai1 ready1 cur cq evA).state.cur = some j ∧
          (rrBody quantum time ps1 ai1 ready1 cur cq evA).state.cq = 1))) ∨
    (∃ c, cur = some c ∧
      (rrBody quantum time ps1 ai1 ready1 cur cq evA).info.exec = some c ∧
      (rrBody quantum time ps1 ai1 ready1 cur cq evA).info.sel = none ∧
      ¬ quantum ≤ (cq : Int) ∧
      ((rrBody quantum time ps1 ai1 ready1 cur cq evA).state.cur = none ∨
        ((rrBody quantum time ps1 ai1 ready1 cur cq evA).state.cur = some c ∧
          (rrBody quantum time ps1 ai1 ready1 cur cq evA).state.cq = cq + 1))) := by
  cases cur with
  | none =>
    cases ready1 with
    | nil =>
      refine Or.inl ⟨?_, ?_, ?_⟩ <;>
        simp [rrBody, rrNeeds, rrFinishStep, rrPreemptStep, rrPickStep]
    | cons j rest =>
      refine Or.inr (Or.inl ⟨j, ?_, ?_, ?_⟩)
      · by_cases hdec : (getP (modifyIdx (modifyIdx ps1 j (selectProc time)) j decRem) j).is_finished = true <;>
          simp [rrBody, rrNeeds, rrFinishStep, rrPreemptStep, rrPickStep, execUnit, hdec]
      · by_cases hdec : (getP (modifyIdx (modifyIdx ps1 j (selectProc time)) j decRem) j).is_finished = true <;>
          simp [rrBody, rrNeeds, rrFinishStep, rrPreemptStep, rrPickStep, execUnit, hdec]
      · by_cases hdec : (getP (modifyIdx (modifyIdx ps1 j (selectProc time)) j decRem) j).is_finished = true
        · exact Or.inl (by simp [rrBody, rrNeeds, rrFinishStep, rrPreemptStep, rrPickStep, execUnit, hdec])
        · exact Or.inr (by constructor <;>
            simp [rrBody, rrNeeds, rrFinishStep, rrPreemptStep, rrPickStep, execUnit, hdec])
  | some c =>
    by_cases hfin : (getP ps1 c).is_finished = true
    · -- already-finished current: cleared, then pick like the no-current case
      cases ready1 with
      | nil =>
        refine Or.inl ⟨?_, ?_, ?_⟩ <;>
          simp [rrBody, rrNeeds, rrFinishStep, rrPreemptStep, rrPickStep, hfin]
      | cons j rest =>
        refine Or.inr (Or.inl ⟨j, ?_, ?_, ?_⟩)
        · by_cases hdec : (getP (modifyIdx (modifyIdx (modifyIdx ps1 c (rrZombieFin time)) j (selectProc time)) j decRem) j).is_finished = true <;>
            simp [rrBody, rrNeeds, rrFinishStep, rrPreemptStep, rrPickStep, execUnit, hfin, hdec]
        · by_cases hdec : (getP (modifyIdx (modifyIdx (modifyIdx ps1 c (rrZombieFin time)) j (selectProc time)) j decRem) j).is_finished = true <;>
            simp [rrBody, rrNeeds, rrFinishStep, rrPreemptStep, rrPickStep, execUnit, hfin, hdec]
        · by_cases hdec : (getP (modifyIdx (modifyIdx (modifyIdx ps1 c (rrZombieFin time)) j (selectProc time)) j decRem) j).is_finished = true
          · exact Or.inl (by simp [rrBody, rrNeeds, rrFinishStep, rrPreemptStep, rrPickStep, execUnit, hfin, hdec])
          · exact Or.inr (by constructor <;>
              simp [rrBody, rrNeeds, rrFinishStep, rrPreemptStep, rrPickStep, execUnit, hfin, hdec])
    · by_cases hq : quantum ≤ (cq : Int)
      · -- quantum expiry: requeue and dequeue the head of ready1 ++ [c]
        cases ready1 with
        | nil =>
          refine Or.inr (Or.inl ⟨c, ?_, ?_, ?_⟩)
          · by_cases hdec : (getP (modifyIdx (modifyIdx (modifyIdx ps1 c setReadyState) c (selectProc time)) c decRem) c).is_finished = true <;>
              simp [rrBody, rrNeeds, rrFinishStep, rrPreemptStep, rrPickStep, execUnit, hfin, hq, hdec]
          · by_cases hdec : (getP (modifyIdx (modifyIdx (modifyIdx ps1 c setReadyState) c (selectProc time)) c decRem) c).is_finished = true <;>
              simp [rrBody, rrNeeds, rrFinishStep, rrPreemptStep, rrPickStep, execUnit, hfin, hq, hdec]
          · by_cases hdec : (getP (modifyIdx (modifyIdx (modifyIdx ps1 c setReadyState) c (selectProc time)) c decRem) c).is_finished = true
            · exact Or.inl (by simp [rrBody, rrNeeds, rrFinishStep, rrPreemptStep, rrPickStep, execUnit, hfin, hq, hdec])
            · exact Or.inr (by constructor <;>
                simp [rrBody, rrNeeds, rrFinishStep, rrPreemptStep, rrPickStep, execUnit, hfin, hq, hdec])
        | cons j rest =>
          refine Or.inr (Or.inl ⟨j, ?_, ?_, ?_⟩)
          · by_cases hdec : (getP (modifyIdx (modifyIdx (modifyIdx ps1 c setReadyState) j (selectProc time)) j decRem) j).is_finished = true <;>
              simp [rrBody, rrNeeds, rrFinishStep, rrPreemptStep, rrPickStep, execUnit, hfin, hq, hdec]
          · by_cases hdec : (getP (modifyIdx (modifyIdx (modifyIdx ps1 c setReadyState) j (selectProc time)) j decRem) j).is_finished = true <;>
              simp [rrBody, rrNeeds, rrFinishStep, rrPreemptStep, rrPickStep, execUnit, hfin, hq, hdec]
          · by_cases hdec : (getP (modifyIdx (modifyIdx (modifyIdx ps1 c setReadyState) j (selectProc time)) j decRem) j).is_finished = true
            · exact Or.inl (by simp [rrBody, rrNeeds, rrFinishStep, rrPreemptStep, rrPickStep, execUnit, hfin, hq, hdec])
            · exact Or.inr (by constructor <;>
                simp [rrBody, rrNeeds, rrFinishStep, rrPreemptStep, rrPickStep, execUnit, hfin, hq, hdec])
      · -- quantum not exhausted: silent continuation
        refine Or.inr (Or.inr ⟨c, rfl, ?_, ?_, hq, ?_⟩)
        · by_cases hdec : (getP (modifyIdx ps1 c decRem) c).is_finished = true <;>
            simp [rrBody, rrNeeds, rrFinishStep, rrPreemptStep, rrPickStep, execUnit, hfin, hq, hdec]
        · by_cases hdec : (getP (modifyIdx ps1 c decRem) c).is_finished = true <;>
            simp [rrBody, rrNeeds, rrFinishStep, rrPreemptStep, rrPickStep, execUnit, hfin, hq, hdec]
        · by_cases hdec : (getP (modifyIdx ps1 c decRem) c).is_finished = true
          · exact Or.inl (by simp [rrBody, rrNeeds, rrFinishStep, rrPreemptStep, rrPickStep, execUnit, hfin, hq, hdec])
          · exact Or.inr (by constructor <;>
              simp [rrBody, rrNeeds, rrFinishStep, rrPreemptStep, rrPickStep, execUnit, hfin, hq, hdec])

lemma SW_step (q : Nat) (hq1 : 1 ≤ q) (cur : Option Nat) (cq : Nat) (pre : List TickInfo)
    (info : TickInfo) (cur' : Option Nat) (cq' : Nat)
    (hshape : (info.exec = none ∧ info.sel = none ∧ cur' = none) ∨
      (∃ j, info.exec = some j ∧ info.sel = some j ∧
        (cur' = none ∨ (cur' = some j ∧ cq' = 1))) ∨
      (∃ c, cur = some c ∧ info.exec = some c ∧ info.sel = none ∧ ¬ (q : Int) ≤ (cq : Int) ∧
        (cur' = none ∨ (cur' = some c ∧ cq' = cq + 1))))
    (hS : ∀ i, cur = some i → 1 ≤ cq ∧ cq ≤ pre.length ∧
      ((pre[pre.length - cq]?).map TickInfo.sel) = some (some i))
    (hW : RrW q pre) :
    (∀ i, cur' = some i → 1 ≤ cq' ∧ cq' ≤ (pre ++ [info]).length ∧
      (((pre ++ [info])[(pre ++ [info]).length - cq']?).map TickInfo.sel) = some (some i)) ∧
    RrW q (pre ++ [info]) := by
  have hlen : (pre ++ [info]).length = pre.length + 1 := by simp
  have hat : (pre ++ [info])[pre.length]? = some info := by
    rw [List.getElem?_append_right (le_refl _)]
    simp
  constructor
  · intro i hcur'
    rcases hshape with ⟨_, _, hn⟩ | ⟨j, hje, hjs, hdisj⟩ | ⟨c, hcc, hce, hcs, hqlt, hdisj⟩
    · rw [hn] at hcur'; exact Option.noConfusion hcur'
    · rcases hdisj with hn | ⟨hcj, hcq1⟩
      · rw [hn] at hcur'; exact Option.noConfusion hcur'
      · have hij : i = j := by
          rw [hcj] at hcur'
          exact (Option.some.inj hcur').symm
        subst hij
        rw [hcq1, hlen]
        refine ⟨le_refl 1, by omega, ?_⟩
        have hidx : pre.length + 1 - 1 = pre.length := by omega
        rw [hidx, hat]
        simp [hjs]
    · rcases hdisj with hn | ⟨hcc', hcq'⟩
      · rw [hn] at hcur'; exact Option.noConfusion hcur'
      · have hic : i = c := by
          rw [hcc'] at hcur'
          exact (Option.some.inj hcur').symm
        subst hic
        obtain ⟨h1cq, hcqlen, hsel⟩ := hS i hcc
        rw [hcq', hlen]
        refine ⟨by omega, by omega, ?_⟩
        have hidx : pre.length + 1 - (cq + 1) = pre.length - cq := by omega
        rw [hidx]
        rw [List.getElem?_append_left (by omega : pre.length - cq < pre.length)]
        exact hsel
  · intro t0 p hwin
    rcases Nat.lt_trichotomy (t0 + q) pre.length with hlt | heq | hgt
    · have hwin' : ∀ k, k ≤ q → ((pre[t0 + k]?).map TickInfo.exec) = some (some p) := by
        intro k hk
        have hk2 : t0 + k < pre.length := by omega
        have := hwin k hk
        rw [List.getElem?_append_left hk2] at this
        exact this
      obtain ⟨k, hk1, hk2, hk3⟩ := hW t0 p hwin'
      refine ⟨k, hk1, hk2, ?_⟩
      rw [List.getElem?_append_left (by omega : t0 + k < pre.length)]
      exact hk3
    · have hq' := hwin q (le_refl q)
      rw [heq, hat] at hq'
      have hexecp : info.exec = some p := by
        simpa using hq'
      rcases hshape with ⟨hne, _, _⟩ | ⟨j, hje, hjs, _⟩ | ⟨c, hcc, hce, hcs, hqlt, _⟩
      · rw [hne] at hexecp; exact Option.noConfusion hexecp
      · have hjp : j = p := by
          rw [hje] at hexecp
          exact Option.some.inj hexecp
        refine ⟨q, hq1, le_refl q, ?_⟩
        rw [heq, hat]
        simp [hjs, hjp]
      · have hcp : c = p := by
          rw [hce] at hexecp
          exact Option.some.inj hexecp
        obtain ⟨h1cq, hcqlen, hsel⟩ := hS c hcc
        have hcqq : cq < q := by omega
        refine ⟨q - cq, by omega, by omega, ?_⟩
        have hidx : t0 + (q - cq) = pre.length - cq := by omega
        rw [hidx]
        rw [List.getElem?_append_left (by omega : pre.length - cq < pre.length)]
        rw [hcp] at hsel
        exact hsel
    · have hq' := hwin q (le_refl q)
      rw [List.getElem?_eq_none (by simp; omega : (pre ++ [info]).length ≤ t0 + q)] at hq'
      simp at hq'

lemma rrLoop_SW (q : Nat) (hq1 : 1 ≤ q) :
    ∀ fuel time s pre,
      (∀ i, s.cur = some i → 1 ≤ s.cq ∧ s.cq ≤ pre.length ∧
        ((pre[pre.length - s.cq]?).map TickInfo.sel) = some (some i)) →
      RrW q pre →
      RrW q (pre ++ (runLoop (rrTick (q : Int)) time fuel s).trace) := by
  intro fuel
  induction fuel with
  | zero =>
    intro time s pre hS hW
    simpa [runLoop] using hW
  | succ f ih =>
    intro time s pre hS hW
    have hshape := rrBody_shape (q : Int) time
      (markReady s.procs (collectArrivals s.procs time s.arrIdx).2)
      (collectArrivals s.procs time s.arrIdx).1
      (s.ready ++ (collectArrivals s.procs time s.arrIdx).2)
      s.cur s.cq
      (arrivedEvents (markReady s.procs (collectArrivals s.procs time s.arrIdx).2)
        (collectArrivals s.procs time s.arrIdx).2 time)
    have hsw := SW_step q hq1 s.cur s.cq pre
      (rrTick (q : Int) time s).info
      (rrTick (q : Int) time s).state.cur
      (rrTick (q : Int) time s).state.cq
      hshape hS hW
    have hrec := ih (time + 1) (rrTick (q : Int) time s).state
      (pre ++ [(rrTick (q : Int) time s).info]) hsw.1 hsw.2
    have htr : (runLoop (rrTick (q : Int)) time (f + 1) s).trace =
        (rrTick (q : Int) time s).info ::
          (runLoop (rrTick (q : Int)) (time + 1) f (rrTick (q : Int) time s).state).trace := rfl
    rw [htr]
    have happ : pre ++ ((rrTick (q : Int) time s).info ::
        (runLoop (rrTick (q : Int)) (time + 1) f (rrTick (q : Int) time s).state).trace) =
        (pre ++ [(rrTick (q : Int) time s).info]) ++
          (runLoop (rrTick (q : Int)) (time + 1) f (rrTick (q : Int) time s).state).trace := by
      simp
    rw [happ]
    exact hrec

/-- C6: under round robin with a positive quantum `q`, no process executes
more than `q` consecutive ticks without being reselected: in any window of
`q+1` consecutive ticks all executed by the same process, that process is
re-selected (after finishing a full quantum it is requeued and dequeued
again, or it had finished and was restarted) at some strictly later tick
of the window.  Equivalently, a process never runs more than `quantum`
ticks of a single allocation. -/
theorem c6_quantum_bound (descs : List (String × Int × Int)) (runfor : Nat) (q : Nat)
    (hq : 1 ≤ q) :
    RrW q (schedule_rr (mkProcs descs) runfor (q : Int)).trace := by
  have h := rrLoop_SW q hq runfor 0 (initState (mkProcs descs)) []
    (by intro i hi; exact Option.noConfusion hi)
    (by
      intro t0 p hwin
      have := hwin 0 (Nat.zero_le q)
      simp at this)
  simpa using h

/-- C6 witness: quantum 1, one process with burst 2; ticks 0 and 1 are both
executed by process 0, and it is indeed re-selected at tick 1 (quantum
expiry, requeue, immediate re-dequeue). -/
theorem c6_quantum_bound_witness :
    ∃ k, 1 ≤ k ∧ k ≤ 1 ∧
      (((schedule_rr (mkProcs [("P1", 0, 2)]) 3 ((1 : Nat) : Int)).trace[0 + k]?).map
        TickInfo.sel) = some (some 0) :=
  c6_quantum_bound [("P1", 0, 2)] 3 1 (le_refl 1) 0 0 (by decide)
